import Mathlib

/-!
# Verification of the Lassy tree-to-DAG extraction and type-assignment engine

A shallow embedding of the graph-construction and type-assignment engine of
`DS_BU.py` (classes `Lassy` and `Decompose`), together with theorems settling
the frozen claims about it.

Modelling conventions:

* An XML `Element` (a node of the parse tree) is identified by an integer
  reference `Nat` (object identity).  All node attributes live in a total
  store `Store : Nat → Node`, mirroring Python's heap of mutable objects;
  attribute mutation is modelled as store update.
* A node's `rel` attribute is either a bare string or (after coindex
  resolution) a dictionary keyed by the parent's `id` attribute, whose values
  are either bare labels or `[label, kind]` pairs.  This is the concrete
  dynamic shape used by the source.
* The adjacency dictionary `grouped` maps a parent key (`none` is Python's
  `None` sentinel for roots) to its ordered child list of `(child, rel)`
  pairs; Python dicts preserve insertion order, so it is an association list.
* Functions that can raise in Python (`KeyError`, `IndexError`, `ValueError`,
  `TypeError`, `NotImplementedError`) return `Option`/`none` at the
  corresponding program point.
* Python `list.remove` removes the first equal element; `for x in lst` with
  an in-place `lst.remove(x)` in the body advances the hidden iterator index
  past the element following the removed one.  Both are modelled exactly
  (`pyErase`, `pyIterRemove`).
* Unbounded recursions (over a dictionary that is not known to be acyclic)
  take an explicit fuel argument; theorems quantify over the fuel.
-/

set_option autoImplicit false

namespace DSBU

/-- The kind-tagged relation value as stored in child lists and `rel`
dictionaries: either a bare string label, or a `[label, kind]` pair
(`kind` is `"primary"` or `"secondary"` in all data the program builds,
but the source only ever tests it by string comparison). -/
inductive Rel where
  | plain (label : String)
  | tagged (label : String) (kind : String)
  deriving DecidableEq, Repr, Inhabited

/-- The `rel` attribute of a node: a bare string before coindex resolution,
or a dictionary from parent `id` attributes to `Rel` values after it. -/
inductive RelAttr where
  | rstr (label : String)
  | rmap (entries : List (Nat × Rel))
  deriving DecidableEq, Repr, Inhabited

/-- The attributes (and child element list) of one XML node.  `children`
is the element's list of `node` sub-elements (object references); the rest
mirrors the attribute dictionary.  `begin`/`endIdx`/`id` are the integer
values of the corresponding string attributes (the source converts them
with `int(...)` wherever it uses them for ordering). -/
structure Node where
  id : Nat
  word : Option String := none
  pos : Option String := none
  cat : Option String := none
  begin : Nat := 0
  endIdx : Nat := 0
  index : Option String := none
  rel : RelAttr := .rstr "--"
  children : List Nat := []
  deriving DecidableEq, Repr, Inhabited

/-- The heap: a total map from object references to nodes (every Python
object exists; dangling references cannot occur). -/
abbrev Store := Nat → Node

/-- The adjacency dictionary built by `group_by_parent`: insertion-ordered
association list from parent key (`none` = the root sentinel) to the ordered
list of `(child, rel)` pairs. -/
abbrev Grouped := List (Option Nat × List (Nat × Rel))

/-- Generic Python dict lookup. -/
def lookupA {κ β : Type} [DecidableEq κ] (d : List (κ × β)) (k : κ) : Option β :=
  (d.find? (fun e => e.1 = k)).map (fun e => e.2)

/-- Generic Python dict update: an existing key keeps its position, a new
key is appended at the end. -/
def dictSetA {κ β : Type} [DecidableEq κ] (d : List (κ × β)) (k : κ) (v : β) :
    List (κ × β) :=
  if (d.find? (fun e => e.1 = k)).isSome then
    d.map (fun e => if e.1 = k then (k, v) else e)
  else d ++ [(k, v)]

/-- Dictionary lookup in the adjacency dictionary (`grouped[key]`,
`none` when Python would raise `KeyError`). -/
def lookupG (g : Grouped) (k : Option Nat) : Option (List (Nat × Rel)) :=
  lookupA g k

/-- The ordered list of keys of the adjacency dictionary
(`grouped.keys()`). -/
def keysG (g : Grouped) : List (Option Nat) := g.map (fun e => e.1)

/-- Python `dict` update at a key (`grouped[key] = v`). -/
def dictSetG (g : Grouped) (k : Option Nat) (v : List (Nat × Rel)) : Grouped :=
  dictSetA g k v

/-- Python `del grouped[key]` (dict keys are unique in Python, so removing
every matching entry is the same as removing the one entry). -/
def delKeyG (g : Grouped) (k : Option Nat) : Grouped :=
  g.filter (fun e => e.1 ≠ k)

/-- Python `list.remove(a)`: removes the first element equal to `a`
(total here; the callers that can see a `ValueError` check membership
explicitly). -/
def pyErase {α : Type} [DecidableEq α] : List α → α → List α
  | [], _ => []
  | x :: xs, a => if x = a then xs else x :: pyErase xs a

theorem pyErase_length {α : Type} [DecidableEq α] (l : List α) (a : α) (h : a ∈ l) :
    (pyErase l a).length + 1 = l.length := by
  induction l with
  | nil => cases h
  | cons x xs ih =>
    by_cases hx : x = a
    · simp [pyErase, hx]
    · have hmem : a ∈ xs := by
        rcases List.mem_cons.mp h with h1 | h1
        · exact absurd h1.symm hx
        · exact h1
      simp [pyErase, hx, ih hmem]

/-- Worker for `pyIterRemove`.  The fuel makes the recursion structural;
every step advances the iterator index `i` by one while the list length
never grows, so a fuel of the initial list length is never exhausted and
the `fuel = 0` arm (returning the list like the loop exit) is
unreachable. -/
def pyIterRemoveGo {α : Type} [DecidableEq α] (p : α → Bool) :
    Nat → List α → Nat → List α
  | 0, l, _ => l
  | f + 1, l, i =>
    if h : i < l.length then
      let x := l.get ⟨i, h⟩
      if p x then pyIterRemoveGo p f (pyErase l x) (i + 1)
      else pyIterRemoveGo p f l (i + 1)
    else l

/-- Python's `for x in lst: if p x: lst.remove(x)` loop.  The list iterator
keeps a position index; removing the current element shifts the remainder
left, so the element immediately following a removed one is skipped. -/
def pyIterRemove {α : Type} [DecidableEq α] (p : α → Bool) (l : List α) : List α :=
  pyIterRemoveGo p (l.length + 1) l 0

/-- Worker for `pyDedup`, keeping the elements already emitted. -/
def pyDedupGo {α : Type} [DecidableEq α] (seen : List α) : List α → List α
  | [] => []
  | x :: xs => if x ∈ seen then pyDedupGo seen xs else x :: pyDedupGo (x :: seen) xs

/-- Python `set(l)` materialised in one fixed iteration order (Python's set
order is unspecified; the embedding fixes first-occurrence order — no claim
depends on which order the set iterates in). -/
def pyDedup {α : Type} [DecidableEq α] (l : List α) : List α := pyDedupGo [] l

/-- One step of Python's stable `sorted`: insert `x` into the already sorted
list, placing it before the first element `y` with `lt y x` false — so an
element keeps its position relative to elements with an equal key
(stability). -/
def pyInsert {α : Type} (lt : α → α → Bool) (x : α) : List α → List α
  | [] => [x]
  | y :: ys => if lt y x then y :: pyInsert lt x ys else x :: y :: ys

/-- Python's stable `sorted(l, key=k)`, with `lt a b` meaning
"`k a` is strictly below `k b`". -/
def pySorted {α : Type} (lt : α → α → Bool) : List α → List α
  | [] => []
  | x :: xs => pyInsert lt x (pySorted lt xs)

/-- Strict lexicographic comparison of character lists by code point. -/
def charListLt : List Char → List Char → Bool
  | [], [] => false
  | [], _ :: _ => true
  | _ :: _, [] => false
  | c :: cs, d :: ds =>
    if c.toNat < d.toNat then true
    else if d.toNat < c.toNat then false
    else charListLt cs ds

/-- Python's `<` on strings: lexicographic comparison by code point
(behaviourally identical to Lean's `String.lt`, but defined by structural
recursion). -/
def strLt (a b : String) : Bool := charListLt a.data b.data

theorem charListLt_irrefl : ∀ as, charListLt as as = false := by
  intro as
  induction as with
  | nil => rfl
  | cons c cs ih => simp [charListLt, ih]

theorem charListLt_asymm : ∀ as bs, charListLt as bs = true → charListLt bs as = false := by
  intro as
  induction as with
  | nil => intro bs h; cases bs <;> simp_all [charListLt]
  | cons c cs ih =>
    intro bs h
    cases bs with
    | nil => cases h
    | cons d ds =>
      simp only [charListLt] at h ⊢
      by_cases hcd : c.toNat < d.toNat
      · rw [if_neg (by omega), if_pos hcd]
      · rw [if_neg hcd] at h
        by_cases hdc : d.toNat < c.toNat
        · rw [if_pos hdc] at h; cases h
        · rw [if_neg hdc] at h
          rw [if_neg (by omega), if_neg (by omega)]
          exact ih ds h

theorem charListLt_le_trans :
    ∀ as bs cs, charListLt bs as = false → charListLt cs bs = false →
      charListLt cs as = false := by
  intro as
  induction as with
  | nil =>
    intro bs cs _ _
    cases cs with
    | nil => rfl
    | cons c cs' => rfl
  | cons a as' ih =>
    intro bs cs h1 h2
    cases bs with
    | nil => simp [charListLt] at h1
    | cons b bs' =>
      cases cs with
      | nil => simp [charListLt] at h2
      | cons c cs' =>
        simp only [charListLt] at h1 h2 ⊢
        have hab : ¬ b.toNat < a.toNat := by
          intro hc
          rw [if_pos hc] at h1
          cases h1
        have hbc : ¬ c.toNat < b.toNat := by
          intro hc
          rw [if_pos hc] at h2
          cases h2
        rw [if_neg (by omega : ¬ c.toNat < a.toNat)]
        by_cases hac : a.toNat < c.toNat
        · rw [if_pos hac]
        · rw [if_neg hac]
          rw [if_neg hab, if_neg (by omega : ¬ a.toNat < b.toNat)] at h1
          rw [if_neg hbc, if_neg (by omega : ¬ b.toNat < c.toNat)] at h2
          exact ih bs' cs' h1 h2

theorem charListLt_eq_of_not_lt :
    ∀ as bs, charListLt as bs = false → charListLt bs as = false → as = bs := by
  intro as
  induction as with
  | nil =>
    intro bs h1 _
    cases bs with
    | nil => rfl
    | cons b bs' => simp [charListLt] at h1
  | cons a as' ih =>
    intro bs h1 h2
    cases bs with
    | nil => simp [charListLt] at h2
    | cons b bs' =>
      simp only [charListLt] at h1 h2
      by_cases hab : a.toNat < b.toNat
      · rw [if_pos hab] at h1; cases h1
      · by_cases hba : b.toNat < a.toNat
        · rw [if_pos hba] at h2; cases h2
        · rw [if_neg hab, if_neg hba] at h1
          rw [if_neg hba, if_neg hab] at h2
          have hn : a.toNat = b.toNat := by omega
          have hd : a = b := Char.eq_of_val_eq (UInt32.ext hn)
          rw [hd, ih bs' h1 h2]

theorem strLt_asymm (a b : String) (h : strLt a b = true) : strLt b a = false :=
  charListLt_asymm a.data b.data h

theorem strLt_le_trans (a b c : String) (h1 : strLt b a = false) (h2 : strLt c b = false) :
    strLt c a = false :=
  charListLt_le_trans a.data b.data c.data h1 h2

theorem strLt_eq_of_not_lt (a b : String) (h1 : strLt a b = false) (h2 : strLt b a = false) :
    a = b := by
  have h := charListLt_eq_of_not_lt a.data b.data h1 h2
  cases a
  cases b
  exact congrArg String.mk h

theorem strLt_irrefl (a : String) : strLt a a = false := charListLt_irrefl a.data

/-!
## The opaque type algebra

Modelled from the spec: the `WordType`/`ColouredType` classes are imported
from a module that is not among the sources; the spec (§6) specifies them
only as an opaque algebra supporting atomic types, functor construction
from (argument-type sequence, result type, color sequence, modality flag),
structural equality and a deterministic string form.
-/

/-- Modelled from the spec: the opaque algebraic type value.  `str` is a raw
category label (the result slot of an atomic `WordType((), label)`); `word`
is `WordType(arglist, result, modality)`; `col` is
`ColouredType(arglist, result, modality, colors)`.  Structural equality is
the derived one; the two classes are distinct constructors. -/
inductive Ty where
  | str (s : String)
  | word (args : List Ty) (result : Ty) (modality : Bool)
  | col (args : List Ty) (result : Ty) (modality : Bool) (colors : List String)
  deriving Repr, Inhabited

mutual

/-- Structural equality of types is decidable (manual instance: the nested
`List Ty` argument prevents the default deriving handler). -/
def tyDecEq : (a b : Ty) → Decidable (a = b)
  | .str s, .str t =>
    if h : s = t then .isTrue (by rw [h])
    else .isFalse (fun hh => by cases hh; exact h rfl)
  | .str _, .word _ _ _ => .isFalse (fun hh => Ty.noConfusion hh)
  | .str _, .col _ _ _ _ => .isFalse (fun hh => Ty.noConfusion hh)
  | .word _ _ _, .str _ => .isFalse (fun hh => Ty.noConfusion hh)
  | .word _ _ _, .col _ _ _ _ => .isFalse (fun hh => Ty.noConfusion hh)
  | .col _ _ _ _, .str _ => .isFalse (fun hh => Ty.noConfusion hh)
  | .col _ _ _ _, .word _ _ _ => .isFalse (fun hh => Ty.noConfusion hh)
  | .word a1 r1 m1, .word a2 r2 m2 =>
    match tyListDecEq a1 a2 with
    | .isFalse h => .isFalse (fun hh => by cases hh; exact h rfl)
    | .isTrue h1 =>
      match tyDecEq r1 r2 with
      | .isFalse h => .isFalse (fun hh => by cases hh; exact h rfl)
      | .isTrue h2 =>
        if h3 : m1 = m2 then .isTrue (by rw [h1, h2, h3])
        else .isFalse (fun hh => by cases hh; exact h3 rfl)
  | .col a1 r1 m1 c1, .col a2 r2 m2 c2 =>
    match tyListDecEq a1 a2 with
    | .isFalse h => .isFalse (fun hh => by cases hh; exact h rfl)
    | .isTrue h1 =>
      match tyDecEq r1 r2 with
      | .isFalse h => .isFalse (fun hh => by cases hh; exact h rfl)
      | .isTrue h2 =>
        if h3 : m1 = m2 then
          if h4 : c1 = c2 then .isTrue (by rw [h1, h2, h3, h4])
          else .isFalse (fun hh => by cases hh; exact h4 rfl)
        else .isFalse (fun hh => by cases hh; exact h3 rfl)

/-- Decidable equality of type lists, mutually with `tyDecEq`. -/
def tyListDecEq : (as bs : List Ty) → Decidable (as = bs)
  | [], [] => .isTrue rfl
  | [], _ :: _ => .isFalse (fun h => List.noConfusion h)
  | _ :: _, [] => .isFalse (fun h => List.noConfusion h)
  | a :: as, b :: bs =>
    match tyDecEq a b with
    | .isFalse h => .isFalse (fun hh => by cases hh; exact h rfl)
    | .isTrue h1 =>
      match tyListDecEq as bs with
      | .isFalse h => .isFalse (fun hh => by cases hh; exact h rfl)
      | .isTrue h2 => .isTrue (by rw [h1, h2])

end

instance : DecidableEq Ty := tyDecEq

mutual

/-- Modelled from the spec: the type algebra's "deterministic string form"
(`__repr__`), used by the source only as a canonical sorting key. -/
def tyRepr : Ty → String
  | .str s => s
  | .word args r m =>
      "WordType(" ++ tyReprList args ++ "; " ++ tyRepr r ++ "; " ++
        (if m then "T" else "F") ++ ")"
  | .col args r m cs =>
      "ColouredType(" ++ tyReprList args ++ "; " ++ tyRepr r ++ "; " ++
        (if m then "T" else "F") ++ "; " ++ String.intercalate "," cs ++ ")"

/-- String form of a list of types, for `tyRepr`. -/
def tyReprList : List Ty → String
  | [] => ""
  | t :: ts => tyRepr t ++ "," ++ tyReprList ts

end

/-- The argument list of a functor type (`t.arglist`); `none` models the
`AttributeError` a raw string would raise. -/
def tyArgs : Ty → Option (List Ty)
  | .str _ => none
  | .word args _ _ => some args
  | .col args _ _ _ => some args

/-- The result of a functor type (`t.result`). -/
def tyResult : Ty → Option Ty
  | .str _ => none
  | .word _ r _ => some r
  | .col _ r _ _ => some r

/-- The colors of a coloured type (`t.colors`); only `ColouredType` has
them. -/
def tyColors : Ty → Option (List String)
  | .col _ _ _ cs => some cs
  | _ => none

/-- The POS/category-to-type table of `Decompose.__init__` (`type_dict`),
before conversion: label to atomic result label. -/
def typeDictS : List (String × String) :=
  [("adj", "ADJ"), ("adv", "ADV"), ("advp", "ADVP"), ("ahi", "AHI"),
   ("ap", "AP"), ("comp", "COMP"), ("comparative", "COMPARATIVE"),
   ("conj", "CONJ"), ("cp", "CP"), ("det", "DET"), ("detp", "DETP"),
   ("du", "DU"), ("fixed", "FIXED"), ("inf", "INF"), ("mwu", "MWU"),
   ("name", "NP"), ("noun", "NP"), ("np", "NP"), ("num", "NP"),
   ("oti", "OTI"), ("part", "PART"), ("pp", "PP"), ("ppart", "PPART"),
   ("ppres", "PPRES"), ("prefix", "PREFIX"), ("prep", "PREP"),
   ("pron", "NP"), ("punct", "PUNCT"), ("rel", "REL"), ("smain", "S"),
   ("ssub", "S"), ("sv1", "S"), ("svan", "SVAN"), ("tag", "TAG"),
   ("ti", "TI"), ("top", "TOP"), ("verb", "VERB"), ("vg", "VG"),
   ("whq", "WHQ"), ("whrel", "WHREL"), ("whsub", "WHSUB")]

/-- `self.type_dict[k]` after the conversion on construction
(`{k: WordType((), v)}`); `none` is the `KeyError`. -/
def typeDict (k : String) : Option Ty :=
  ((typeDictS.find? (fun e => e.1 = k)).map (fun e => e.2)).map
    (fun v => Ty.word [] (.str v) false)

/-- `Decompose.get_rel`: the label of either relation shape. -/
def getRel : Rel → String
  | .plain s => s
  | .tagged s _ => s

/-- `Decompose.is_leaf`: a node is a leaf iff it carries `word`. -/
def isLeaf (st : Store) (n : Nat) : Bool := ((st n).word).isSome

/-- The head-relation candidate list of `Decompose.__init__`. -/
def headCandidates : List String := ["hd", "rhd", "whd", "cmp", "crd", "dlink"]

/-- `Decompose.pick_first_match`: the first child whose relation equals the
condition (`None` if there is none). -/
def pickFirstMatch (childrenRels : List (Nat × Rel)) (cond : Rel) : Option Nat :=
  ((childrenRels.filter (fun x => x.2 = cond)).head?).map (fun x => x.1)

/-- `Decompose.choose_head`: the first child whose relation label is a head
candidate; otherwise the coordination fallback on a bare `crd`/`cnj`
relation; otherwise `none` (the `ValueError` for an unknown headless
structure).  `pick_first_match` cannot return `None` under its guard, so
the returned node is never Python's `None`. -/
def chooseHead (childrenRels : List (Nat × Rel)) : Option (Nat × Rel) :=
  match childrenRels.find? (fun x => headCandidates.contains (getRel x.2)) with
  | some x => some x
  | none =>
    let rels := childrenRels.map (fun x => x.2)
    if rels.contains (Rel.plain "crd") then
      (pickFirstMatch childrenRels (Rel.plain "crd")).map (fun n => (n, Rel.plain "crd"))
    else if rels.contains (Rel.plain "cnj") then
      (pickFirstMatch childrenRels (Rel.plain "cnj")).map (fun n => (n, Rel.plain "cnj"))
    else none

/-- The `(begin, end, id)` integer sort key of a node
(`tuple(map(int, (begin, end, id)))`). -/
def tripleOf (st : Store) (r : Nat) : Nat × Nat × Nat :=
  ((st r).begin, (st r).endIdx, (st r).id)

/-- Strict lexicographic comparison of Python integer triples. -/
def tripleLtB (a b : Nat × Nat × Nat) : Bool :=
  decide (a.1 < b.1 ∨ (a.1 = b.1 ∧ (a.2.1 < b.2.1 ∨ (a.2.1 = b.2.1 ∧ a.2.2 < b.2.2))))

/-- `Decompose.order_siblings`: drop every entry whose node equals
`exclude` (when given), then stably sort by `(begin, end, id)`. -/
def orderSiblings (st : Store) (exclude : Option Nat) (siblings : List (Nat × Rel)) :
    List (Nat × Rel) :=
  let l := match exclude with
    | none => siblings
    | some e => siblings.filter (fun p => p.1 ≠ e)
  pySorted (fun a b => tripleLtB (tripleOf st a.1) (tripleOf st b.1)) l

mutual

/-- `Decompose.majority_vote`: count each distinct child base-type key and
return the first key of the count-descending stable sort (`none` covers the
`KeyError` on a missing parent entry, a failing child key, the `IndexError`
on an empty child list, and fuel exhaustion; the fuel — an embedding
artifact, consumed once per recursive step so the recursion is structural —
bounds the conjunction recursion, unbounded in Python). -/
def majorityVote (st : Store) (g : Grouped) (fm : Nat) (node : Nat) : Option String :=
  match fm with
  | 0 => none
  | f + 1 =>
    match lookupG g (some node) with
    | none => none
    | some sibs =>
      match getTypeKeys st g f sibs with
      | none => none
      | some keys =>
        (pySorted (fun a b => keys.count b < keys.count a) (pyDedup keys)).head?

/-- `Decompose.get_type_key`: the `cat`/`pos` of a node, with majority vote
on conjunctions. -/
def getTypeKey (st : Store) (g : Grouped) (fm : Nat) (node : Nat) : Option String :=
  match fm with
  | 0 => none
  | f + 1 =>
    match (st node).cat with
    | some c => if c = "conj" then majorityVote st g f node else some c
    | none => (st node).pos

/-- The list comprehension `[get_type_key(n[0]) for n in grouped[node]]`
(a failure of any element fails the whole computation, as in Python). -/
def getTypeKeys (st : Store) (g : Grouped) (fm : Nat) (sibs : List (Nat × Rel)) :
    Option (List String) :=
  match fm with
  | 0 => none
  | f + 1 =>
    match sibs with
    | [] => some []
    | x :: xs =>
      match getTypeKey st g f x.1 with
      | none => none
      | some k => (getTypeKeys st g f xs).map (fun ks => k :: ks)

end

/-- `Decompose.get_plain_type`: the context-free type of a node, looked up
in `type_dict` from its `cat`/`pos` (majority vote on conjunctions). -/
def getPlainType (st : Store) (g : Grouped) (fm : Nat) (node : Nat) : Option Ty :=
  match (st node).cat with
  | some c =>
    if c = "conj" then
      match majorityVote st g fm node with
      | none => none
      | some k => typeDict k
    else typeDict c
  | none =>
    match (st node).pos with
    | some p => typeDict p
    | none => none

/-! ## Store mutation -/

/-- In-place attribute mutation of the object at reference `r`. -/
def updStore (st : Store) (r : Nat) (n : Node) : Store :=
  fun x => if x = r then n else st x

/-- `del node.attrib['rel'][k]`: `none` models the `TypeError` on a bare
string and the `KeyError` on a missing key. -/
def relMapDel (ra : RelAttr) (k : Nat) : Option RelAttr :=
  match ra with
  | .rstr _ => none
  | .rmap m =>
    if (m.find? (fun e => e.1 = k)).isSome then
      some (.rmap (m.filter (fun e => e.1 ≠ k)))
    else none

/-- `node.attrib['rel'][k] = v`: Python dict assignment keeps an existing
key's position and appends a new key at the end; `none` models the
`TypeError` on a bare string. -/
def relMapSet (ra : RelAttr) (k : Nat) (v : Rel) : Option RelAttr :=
  match ra with
  | .rstr _ => none
  | .rmap m => some (.rmap (dictSetA m k v))

/-- Reading one entry of a `rel` dictionary (a specification-side helper
for stating theorems about the bookkeeping). -/
def relLookup (ra : RelAttr) (k : Nat) : Option Rel :=
  match ra with
  | .rstr _ => none
  | .rmap m => lookupA m k

/-! ## `Decompose.collapse_mwu` -/

/-- The comprehension reading each ordered child's `word`; `none` is the
`KeyError` on a wordless child. -/
def wordsOf (st : Store) : List (Nat × Rel) → Option (List String)
  | [] => some []
  | x :: xs =>
    match (st x.1).word with
    | none => none
    | some w => (wordsOf st xs).map (fun ws => w :: ws)

/-- The key loop of `collapse_mwu`: visit the dictionary's keys in order;
for each `mwu`-categorised parent, write the space-joined child text into
its `word`, majority-vote its new `cat` (after the `word` write, as in the
source), and record it for deletion.  Only node attributes are mutated
during the loop; the accumulated removal list is applied afterwards. -/
def collapseMwuLoop (fm : Nat) (g : Grouped) :
    List (Option Nat) → Store → List (Option Nat) → Option (Store × List (Option Nat))
  | [], st, toRemove => some (st, toRemove)
  | k? :: rest, st, toRemove =>
    match k? with
    | none => collapseMwuLoop fm g rest st toRemove
    | some k =>
      match (st k).cat with
      | none => collapseMwuLoop fm g rest st toRemove
      | some c =>
        if c = "mwu" then
          match lookupG g (some k) with
          | none => none
          | some children =>
            let nodes := orderSiblings st none children
            match wordsOf st nodes with
            | none => none
            | some ws =>
              let st1 := updStore st k { st k with word := some (String.intercalate " " ws) }
              match majorityVote st1 g fm k with
              | none => none
              | some mv =>
                let st2 := updStore st1 k { st1 k with cat := some mv }
                collapseMwuLoop fm g rest st2 (toRemove ++ [some k])
        else collapseMwuLoop fm g rest st toRemove

/-- `Decompose.collapse_mwu`: collapse every multi-word-unit parent into a
leaf and delete it from the dictionary's key set. -/
def collapseMwu (fm : Nat) (g : Grouped) (st : Store) : Option (Grouped × Store) :=
  match collapseMwuLoop fm g (keysG g) st [] with
  | none => none
  | some (st', toRemove) => some (toRemove.foldl delKeyG g, st')

/-! ## `Decompose.split_dag` -/

theorem delKeyG_length_le (g : Grouped) (k : Option Nat) :
    (delKeyG g k).length ≤ g.length :=
  List.length_filter_le _ g

theorem foldl_delKeyG_length_le (ks : List (Option Nat)) (g : Grouped) :
    (ks.foldl delKeyG g).length ≤ g.length := by
  induction ks generalizing g with
  | nil => exact Nat.le_refl _
  | cons k rest ih =>
    calc (List.foldl delKeyG g (k :: rest)).length
        = (List.foldl delKeyG (delKeyG g k) rest).length := rfl
      _ ≤ (delKeyG g k).length := ih _
      _ ≤ g.length := delKeyG_length_le g k

theorem delKeyG_length_lt (g : Grouped) (k : Option Nat)
    (h : ∃ e ∈ g, e.1 = k) : (delKeyG g k).length < g.length := by
  induction g with
  | nil => obtain ⟨e, he, _⟩ := h; cases he
  | cons x xs ih =>
    by_cases hx : x.1 = k
    · have : (delKeyG (x :: xs) k).length ≤ xs.length := by
        simp only [delKeyG, List.filter]
        rw [show (decide (x.1 ≠ k)) = false by simp [hx]]
        exact List.length_filter_le _ xs
      simp only [List.length_cons]; omega
    · obtain ⟨e, he, hek⟩ := h
      rcases List.mem_cons.mp he with h1 | h1
      · exact absurd (h1 ▸ hek) hx
      · have hlt := ih ⟨e, h1, hek⟩
        simp only [delKeyG, List.filter]
        rw [show (decide (x.1 ≠ k)) = true by simp [hx]]
        simp only [List.length_cons]
        exact Nat.succ_lt_succ hlt

/-- The `while len(empty_keys)` cascade of `split_dag`: delete every parent
with an empty child list, then walk each remaining child list with the
in-place removing iterator (which skips the element after each removal),
and repeat until no parent is empty.  The fuel makes the recursion
structural; each pass through the `while` body deletes at least one key
(`delKeyG_length_lt`, `foldl_delKeyG_length_le`), so a fuel of the initial
number of keys is never exhausted and the `fuel = 0` arm is
unreachable. -/
def splitDagLoopGo : Nat → Grouped → Grouped
  | 0, g => g
  | f + 1, g =>
    match (g.filter (fun e => e.2 = [])).map (fun e => e.1) with
    | [] => g
    | e :: rest =>
      let g1 := (e :: rest).foldl delKeyG g
      let g2 := g1.map (fun en =>
        (en.1, pyIterRemove (fun cr => (e :: rest).contains (some cr.1)) en.2))
      splitDagLoopGo f g2

/-- The empty-parent cascade, with sufficient fuel. -/
def splitDagLoop (g : Grouped) : Grouped := splitDagLoopGo (g.length + 1) g

/-- `Decompose.split_dag`: delete parents with a category in
`catsToRemove`; drop child edges pointing at a deleted parent or carrying a
relation in `relsToRemove` (two-phase, so no iterator skipping here); then
run the empty-parent cascade. -/
def splitDag (st : Store) (catsToRemove relsToRemove : List String) (g : Grouped) : Grouped :=
  let keysToRemove : List (Option Nat) := (keysG g).filter (fun k? =>
    match k? with
    | none => false
    | some k =>
      match (st k).cat with
      | some c => catsToRemove.contains c
      | none => false)
  let keysToRemoveRefs : List Nat := keysToRemove.filterMap (fun k? => k?)
  let g1 := keysToRemove.foldl delKeyG g
  let g2 := g1.map (fun en =>
    let toRem := en.2.filter (fun cr =>
      keysToRemoveRefs.contains cr.1 || relsToRemove.contains (getRel cr.2))
    (en.1, toRem.foldl pyErase en.2))
  splitDagLoop g2

/-- Default `cats_to_remove` of `split_dag`. -/
def defaultCatsToRemove : List String := ["du"]

/-- Default `rels_to_remove` of `split_dag`. -/
def defaultRelsToRemove : List String := ["dp", "sat", "nucl", "tag", "--", "top"]

/-! ## `Decompose.abstract_object_to_subject` -/

/-- The clause categories the relabeling applies to. -/
def clauseCats : List String := ["ssub", "smain", "sv1"]

/-- The filter for the real argument: the first child attached by a
`Secondary` edge labeled `su` or `obj1`. -/
def findRealSO (children : List (Nat × Rel)) : Option (Nat × Rel) :=
  children.find? (fun x =>
    x.2 = Rel.tagged "su" "secondary" || x.2 = Rel.tagged "obj1" "secondary")

/-- The om-te descent: when a `ti`-categorised child exists, the search for
the complement continues below it instead of below the clause (the
membership guard `'cat' in attrib` of the comprehension is subsumed by the
equality test). -/
def aosPar (st : Store) (kids : List (Nat × Rel)) (mp : Nat) : Nat :=
  match kids.find? (fun x => (st x.1).cat = some "ti") with
  | some t => t.1
  | none => mp

/-- The first child with category `ppart` or `inf` (the membership guard
`'cat' in attrib` of the comprehension is subsumed by the equality test). -/
def findPpartInf (st : Store) (children : List (Nat × Rel)) : Option Nat :=
  (children.find? (fun x =>
    (st x.1).cat = some "ppart" || (st x.1).cat = some "inf")).map (fun x => x.1)

/-- The abstract-argument filter under a complement: among the indexed
children, the first attached by a `Primary` `su`/`obj1` edge whose `index`
equals the real argument's.  The outer `none` is the `KeyError` raised when
some indexed child matches the relation test while the real argument has no
`index` (Python's `and` evaluates the right conjunct then). -/
def findAbstractIn (st : Store) (realIdx : Option String) :
    List (Nat × Rel) → Option (Option (Nat × Rel))
  | [] => some none
  | x :: xs =>
    if ((st x.1).index).isSome then
      if x.2 = Rel.tagged "obj1" "primary" || x.2 = Rel.tagged "su" "primary" then
        match realIdx with
        | none => none
        | some ri =>
          if (st x.1).index = some ri then some (some x)
          else findAbstractIn st realIdx xs
      else findAbstractIn st realIdx xs
    else findAbstractIn st realIdx xs

/-- The dictionary and bookkeeping mutations performed once an abstract
argument `ab` has been located in the child list `ppKids` of complement
`pp`: remove its `Primary` edge there; remove the `(node, [dep, secondary])`
entry at the clause `mp` (`none` is the `ValueError` when it is absent);
append the node at `mp` with `[dep, primary]`; delete the complement entry
from the node's `rel` dictionary and set its clause entry to
`['su', 'primary']` (the label is hard-coded in the source). -/
def aosMutate (g : Grouped) (st : Store) (mp : Nat) (parentDep : String)
    (pp : Nat) (ppKids : List (Nat × Rel)) (ab : Nat × Rel) : Option (Grouped × Store) :=
  let rel := getRel ab.2
  let a := ab.1
  let g1 := dictSetG g (some pp) (pyErase ppKids (a, Rel.tagged rel "primary"))
  match lookupG g1 (some mp) with
  | none => none
  | some kids1 =>
    let target := (a, Rel.tagged parentDep "secondary")
    if kids1.contains target then
      let g2 := dictSetG g1 (some mp)
        (pyErase kids1 target ++ [(a, Rel.tagged parentDep "primary")])
      match relMapDel ((st a).rel) ((st pp).id) with
      | none => none
      | some ra1 =>
        match relMapSet ra1 ((st mp).id) (Rel.tagged "su" "primary") with
        | none => none
        | some ra2 => some (g2, updStore st a { st a with rel := ra2 })
    else none

/-- One key's iteration of `abstract_object_to_subject`: `some (g, st)`
unchanged models Python's `continue`; `none` models an uncaught
exception. -/
def aosStep (g : Grouped) (st : Store) (mainParent? : Option Nat) : Option (Grouped × Store) :=
  match mainParent? with
  | none => none
  | some mp =>
    match (st mp).cat with
    | none => none
    | some c =>
      if clauseCats.contains c = false then some (g, st)
      else
        match lookupG g (some mp) with
        | none => none
        | some kids =>
          match findRealSO kids with
          | none => some (g, st)
          | some (realRef, realRel) =>
            let parentDep := getRel realRel
            let par := aosPar st kids mp
            match lookupG g (some par) with
            | none => none
            | some parKids =>
              match findPpartInf st parKids with
              | none => some (g, st)
              | some pp0 =>
                match lookupG g (some pp0) with
                | none => none
                | some ppKids =>
                  match findAbstractIn st ((st realRef).index) ppKids with
                  | none => none
                  | some (some ab) => aosMutate g st mp parentDep pp0 ppKids ab
                  | some none =>
                    match findPpartInf st ppKids with
                    | none => some (g, st)
                    | some pp1 =>
                      match lookupG g (some pp1) with
                      | none => none
                      | some pp1Kids =>
                        match findAbstractIn st ((st realRef).index) pp1Kids with
                        | none => none
                        | some none => some (g, st)
                        | some (some ab) => aosMutate g st mp parentDep pp1 pp1Kids ab

/-- The key loop of `abstract_object_to_subject` (keys are fixed up front;
values and node attributes are threaded through). -/
def aosFold : List (Option Nat) → Grouped → Store → Option (Grouped × Store)
  | [], g, st => some (g, st)
  | k :: ks, g, st =>
    match aosStep g st k with
    | none => none
    | some (g', st') => aosFold ks g' st'

/-- `Decompose.abstract_object_to_subject`. -/
def abstractObjectToSubject (g : Grouped) (st : Store) : Option (Grouped × Store) :=
  aosFold (keysG g) g st

/-! ## `Decompose.remove_abstract_so` -/

/-- The in-place removing loop of `remove_abstract_so` over one parent's
child list, at iterator index `i`: a `[su/obj1, secondary]` entry is removed
from the list and the parent's entry is deleted from the child's `rel`
dictionary (`none` is the uncaught `KeyError`/`TypeError`); the removal
semantics skips the element that follows a removed one. -/
def rasLoopGo (pidAttr : Nat) : Nat → List (Nat × Rel) → Store → Nat →
    Option (List (Nat × Rel) × Store)
  | 0, l, st, _ => some (l, st)
  | f + 1, l, st, i =>
    if h : i < l.length then
      let x := l.get ⟨i, h⟩
      match x.2 with
      | .plain _ => rasLoopGo pidAttr f l st (i + 1)
      | .tagged lbl k =>
        if lbl = "su" || lbl = "obj1" then
          if k = "secondary" then
            match relMapDel ((st x.1).rel) pidAttr with
            | none => none
            | some ra =>
              rasLoopGo pidAttr f (pyErase l x)
                (updStore st x.1 { st x.1 with rel := ra }) (i + 1)
          else rasLoopGo pidAttr f l st (i + 1)
        else rasLoopGo pidAttr f l st (i + 1)
    else some (l, st)

/-- The removing loop, with sufficient fuel (each step advances the
iterator index while the list never grows, so the `fuel = 0` arm — which
exits like the loop end — is unreachable). -/
def rasLoop (pidAttr : Nat) (l : List (Nat × Rel)) (st : Store) :
    Option (List (Nat × Rel) × Store) :=
  rasLoopGo pidAttr (l.length + 1) l st 0

/-- The key loop of `remove_abstract_so`. -/
def rasFold : List (Option Nat) → Grouped → Store → Option (Grouped × Store)
  | [], g, st => some (g, st)
  | k? :: ks, g, st =>
    match k? with
    | none => none
    | some p =>
      match (st p).cat with
      | none => none
      | some c =>
        if c ≠ "ppart" && c ≠ "inf" then rasFold ks g st
        else
          match lookupG g (some p) with
          | none => none
          | some kids =>
            match rasLoop (st p).id kids st with
            | none => none
            | some (kids', st') => rasFold ks (dictSetG g (some p) kids') st'

/-- `Decompose.remove_abstract_so`. -/
def removeAbstractSo (g : Grouped) (st : Store) : Option (Grouped × Store) :=
  rasFold (keysG g) g st

/-! ## `Decompose.recursive_assignment` -/

/-- The lexicon: a Python dict from disambiguation key to type
(insertion-ordered association list). -/
abbrev Lexicon := List (String × Ty)

/-- `lexicon[key]` (`none` = absent). -/
def lexGet (lex : Lexicon) (k : String) : Option Ty := lookupA lex k

/-- `lexicon[key] = v`. -/
def lexSet (lex : Lexicon) (k : String) (v : Ty) : Lexicon := dictSetA lex k v

/-- `str.lower()`, character by character (the same code-point map as
`String.toLower`, recursing structurally over the character list). -/
def strToLower (s : String) : String := String.mk (s.data.map Char.toLower)

/-- `self.get_key`: lower-cased word text, the separation symbol, and the
node's `id` (the default `text_pipeline`/`separation_symbol` of
`Decompose.__init__`; `get_key` is only reached on leaves, where `word` is
present). -/
def getKey (st : Store) (n : Nat) : String :=
  strToLower ((st n).word.getD "") ++ "↔" ++ toString (st n).id

/-- The local `is_gap` of `recursive_assignment`: a `[label, kind]` relation
with kind `secondary`. -/
def isGapB (r : Rel) : Bool :=
  match r with
  | .tagged _ k => k = "secondary"
  | .plain _ => false

/-- The comprehension
`[[get_plain_type(sib), get_rel(rel)] for sib, rel in siblings]`. -/
def buildArglist (st : Store) (g : Grouped) (fm : Nat) :
    List (Nat × Rel) → Option (List (Ty × String))
  | [] => some []
  | x :: xs =>
    match getPlainType st g fm x.1 with
    | none => none
    | some t => (buildArglist st g fm xs).map (fun l => (t, getRel x.2) :: l)

/-- The head-of-leaf block of `recursive_assignment` (consistency checks
against an earlier pass, then the dict write); `none` models the raised
`ValueError` on a genuine type conflict. -/
def headLeafStep (st : Store) (hc : Nat) (gap : Bool) (argtypes : List Ty)
    (tt : Ty) (argdeps : List String) (headtype : Ty) (lex : Lexicon) : Option Lexicon :=
  let k := getKey st hc
  if gap && (lexGet lex k).isSome then
    match lexGet lex k with
    | some prev =>
      if prev ≠ Ty.col argtypes tt false argdeps ∧ prev ≠ Ty.col argtypes tt true argdeps then
        none
      else some (lexSet lex k headtype)
    | none => none
  else if (lexGet lex k).isSome && lexGet lex k ≠ some headtype then none
  else some (lexSet lex k headtype)

/-- The `if top_type is None` default of `recursive_assignment`: keep a
given top type, else wrap the current node's plain type
(`WordType((), get_plain_type(current))`). -/
def topOType (st : Store) (g : Grouped) (fm : Nat) (cur : Nat) (top : Option Ty) :
    Option Ty :=
  match top with
  | some t => some t
  | none => (getPlainType st g fm cur).map (fun t => Ty.word [] t false)

mutual

/-- `Decompose.recursive_assignment`.  The fuel bounds the recursion depth
(Python recursion is bounded only by the interpreter stack); `none` covers
every raised exception.  The head is processed first, then the span-ordered
non-head siblings in order, threading the lexicon. -/
def assign (st : Store) (g : Grouped) (fuel : Nat) (current : Nat)
    (top : Option Ty) (lex : Lexicon) : Option Lexicon :=
  match fuel with
  | 0 => none
  | f + 1 =>
    match lookupG g (some current) with
    | none => none
    | some siblings0 =>
      match chooseHead siblings0 with
      | none => none
      | some (hc, hr) =>
        match topOType st g (f + 1) current top with
        | none => none
        | some tt =>
          let sibs := orderSiblings st (some hc) siblings0
          let gap := isGapB hr
          match buildArglist st g (f + 1) sibs with
          | none => none
          | some argl0 =>
            let argl := pySorted (fun a b => strLt (tyRepr a.1) (tyRepr b.1)) argl0
            let argtypes := argl.map (fun x => x.1)
            let argdeps := argl.map (fun x => x.2)
            let headtype := Ty.col argtypes tt gap argdeps
            let lex1O : Option Lexicon :=
              if isLeaf st hc then
                headLeafStep st hc gap argtypes tt argdeps headtype lex
              else assign st g f hc (some headtype) lex
            match lex1O with
            | none => none
            | some lex1 => assignSibs st g f sibs lex1

/-- The non-head sibling loop of `recursive_assignment`.  A `Primary` leaf
gets its plain type; a `Secondary` leaf gets the copy/filler-gap type
against its primary entry (`none` models the `ValueError` when no primary
entry exists yet, and the attribute errors of the nested positional
`ColouredType` construction, whose singleton arguments are modelled as
one-element sequences); a `Primary` internal node recurses with no top
type; a `Secondary` internal node is the `NotImplementedError`. -/
def assignSibs (st : Store) (g : Grouped) (fuel : Nat)
    (sibs : List (Nat × Rel)) (lex : Lexicon) : Option Lexicon :=
  match fuel with
  | 0 => none
  | f + 1 =>
    match sibs with
    | [] => some lex
    | (sib, rel) :: rest =>
    if isLeaf st sib then
      match getPlainType st g (f + 1) sib with
      | none => none
      | some pt =>
        let sibType := Ty.word [] pt false
        let newTypeO : Option Ty :=
          if isGapB rel then
            match lexGet lex (getKey st sib) with
            | some primary =>
              if sibType = primary then some (Ty.word [] pt true)
              else
                match tyArgs primary with
                | none => none
                | some args =>
                  match args.head? with
                  | none => none
                  | some a0 =>
                    match tyResult primary with
                    | none => none
                    | some res =>
                      match tyColors primary with
                      | none => none
                      | some cols =>
                        match cols.head? with
                        | none => none
                        | some c0 =>
                          some (Ty.col [Ty.col [sibType] a0 false [getRel rel]] res false [c0])
            | none => none
          else some sibType
        match newTypeO with
        | none => none
        | some t => assignSibs st g f rest (lexSet lex (getKey st sib) t)
    else
      if isGapB rel then none
      else
        match assign st g f sib none lex with
        | none => none
        | some lex1 => assignSibs st g f rest lex1

end

/-! ## `Decompose.lexicon_to_list` -/

mutual

/-- Modelled from the spec: `WordType.remove_deps` is not among the
sources; the spec treats the type algebra as opaque, so it is modelled as
stripping the per-argument colour decoration (the claims that use it do
not depend on its exact output). -/
def removeDeps : Ty → Ty
  | .str s => .str s
  | .word args r m => .word (removeDepsList args) (removeDeps r) m
  | .col args r m _ => .word (removeDepsList args) (removeDeps r) m

/-- `removeDeps` on a list of types. -/
def removeDepsList : List Ty → List Ty
  | [] => []
  | t :: ts => removeDeps t :: removeDepsList ts

end

/-- `key.split(separation_symbol)[0]`: the part of the key before the first
separation symbol. -/
def wordPart (s : String) : String := ((s.splitOn "↔").head?).getD s

/-- The deduplicated, span-ordered list of leaves occurring as children in
the dictionary (`sorted(set(filter(word-bearing, children)), key=triple)`;
the set order is arbitrary in Python but fully re-sorted by the total
`(begin, end, id)` key). -/
def allLeavesSorted (g : Grouped) (st : Store) : List Nat :=
  let leaves := pyDedup
    (((g.map (fun e => e.2)).flatten.map (fun x => x.1)).filter
      (fun r => ((st r).word).isSome))
  pySorted (fun a b => tripleLtB (tripleOf st a) (tripleOf st b)) leaves

/-- One entry of the `ret` comprehension of `lexicon_to_list`: the key's
word part and the dependency-stripped type when the key is in the
sublexicon, nothing otherwise (the `if enum[i] in sublex.keys()` guard). -/
def leafEntry (sublex : Lexicon) (st : Store) (lf : Nat) : Option (String × Ty) :=
  match lexGet sublex (getKey st lf) with
  | none => none
  | some t => some (wordPart (getKey st lf), removeDeps t)

/-- Indexed access of the comprehension: position `i` of `enum`. -/
def idxEntry {α β : Type} (f : α → Option β) (l : List α) (i : Nat) : Option β :=
  match l[i]? with
  | none => none
  | some x => f x

/-- The `(word, type)` pair list `ret` of `Decompose.lexicon_to_list`: one
entry per linear position whose disambiguation key is present in the
sublexicon (`if enum[i] in sublex.keys()` silently skips absent ones). -/
def lexiconToListPairs (sublex : Lexicon) (g : Grouped) (st : Store) : List (String × Ty) :=
  let leaves := allLeavesSorted g st
  (List.range leaves.length).filterMap (idxEntry (leafEntry sublex st) leaves)

/-- `lexicon_to_list` with `to_sequences=True`: the word sequence and the
type sequence. -/
def lexiconToList (sublex : Lexicon) (g : Grouped) (st : Store) : List String × List Ty :=
  ((lexiconToListPairs sublex g st).map (fun x => x.1),
   (lexiconToListPairs sublex g st).map (fun x => x.2))

/-! ## `Lassy.find_main_coindex` -/

/-- `xtree.iter('node')`: document (depth-first pre-) order of the element
tree, with an explicit worklist and fuel (the heap is not known to be
acyclic; any fuel at least the number of reachable nodes yields the full
traversal). -/
def preA (st : Store) : Nat → List Nat → List Nat
  | 0, _ => []
  | _ + 1, [] => []
  | f + 1, r :: rest => r :: preA st f ((st r).children ++ rest)

/-- The main-node qualification: the node carries `cat` or `word`. -/
def qualifiesB (st : Store) (r : Nat) : Bool :=
  ((st r).cat).isSome || ((st r).word).isSome

/-- The sort/group key `x.attrib['index']` (only applied to nodes that
carry `index`). -/
def indexKey (st : Store) (r : Nat) : String := ((st r).index).getD ""

/-- Worker for `groupRuns`: `k` is the current run's key and `run` its
members so far (in reverse). -/
def groupRunsGo (st : Store) (k : String) (run : List Nat) :
    List Nat → List (String × List Nat)
  | [] => [(k, run.reverse)]
  | x :: xs =>
    if indexKey st x = k then groupRunsGo st k (x :: run) xs
    else (k, run.reverse) :: groupRunsGo st (indexKey st x) [x] xs

/-- `itertools.groupby`: split a list into maximal runs of consecutive
elements with equal key. -/
def groupRuns (st : Store) : List Nat → List (String × List Nat)
  | [] => []
  | x :: xs => groupRunsGo st (indexKey st x) [x] xs

/-- The dict comprehension over `groupby` output (later runs with an equal
key overwrite earlier ones, keeping the first position — on sorted input
keys are unique and this is a plain association list). -/
def dictBuildG (runs : List (String × List Nat)) : List (String × List Nat) :=
  runs.foldl (fun d kv => dictSetA d kv.1 kv.2) []

/-- The comprehension choosing each group's main node:
`filter(cat-or-word, nodes)[0]`; `none` is the `IndexError` when a group
has no qualifying member. -/
def mainsOf (st : Store) : List (String × List Nat) → Option (List (String × Nat))
  | [] => some []
  | (i, ns) :: rest =>
    match (ns.filter (fun r => qualifiesB st r)).head? with
    | none => none
    | some m => (mainsOf st rest).map (fun l => (i, m) :: l)

/-- `Lassy.find_main_coindex`: collect the indexed nodes in document order,
stably sort them by `index`, group them, and pick each group's first
`cat`/`word`-bearing member. -/
def findMainCoindex (st : Store) (root fuel : Nat) :
    Option (List (String × List Nat) × List (String × Nat)) :=
  let coindexed := (preA st fuel [root]).filter (fun r => ((st r).index).isSome)
  if coindexed = [] then some ([], [])
  else
    let sorted := pySorted (fun a b => strLt (indexKey st a) (indexKey st b)) coindexed
    let allCoind := dictBuildG (groupRuns st sorted)
    match mainsOf st allCoind with
    | none => none
    | some mains => some (allCoind, mains)

/-! ## `Lassy.tree_to_dag` -/

/-- One copied node: the attribute strings are equal, the child references
are shifted into the copy's reference range. -/
def shiftNode (b : Nat) (n : Node) : Node :=
  { n with children := n.children.map (fun c => c + b) }

/-- `deepcopy`, modelled as allocating the isomorphic copy of every object
at reference `r + b` (for `b` beyond every reference of the original
tree). -/
def shiftStore (st : Store) (b : Nat) : Store :=
  fun n => if b ≤ n then shiftNode b (st (n - b)) else st n

/-- `Lassy.extract_nodes` minus its root entry: the `(child, parent)` pairs
in breadth-first level order (the mid-loop rebinding of `parents` in the
source does not affect the running iteration, so the loop is plain
level-order traversal), with fuel for the unbounded `while`. -/
def bfsPairs (st : Store) : Nat → List Nat → List (Nat × Nat)
  | 0, _ => []
  | f + 1, parents =>
    if parents.isEmpty then []
    else
      let pairs := (parents.map (fun p => ((st p).children).map (fun c => (c, p)))).flatten
      pairs ++ bfsPairs st f (pairs.map (fun x => x.1))

/-- The first loop of `tree_to_dag`: every main coindex node's bare `rel`
string becomes `{parent_id: [rel, 'primary']}` (`none` models the
unrepresentable nested value Python would build if the `rel` were already a
dictionary — impossible on tree-shaped input). -/
def t2dLoop1 (mainRefs : List Nat) : List (Nat × Nat) → Store → Option Store
  | [], st => some st
  | (c, p) :: rest, st =>
    if mainRefs.contains c then
      match (st c).rel with
      | .rstr s =>
        t2dLoop1 mainRefs rest
          (updStore st c { st c with rel := .rmap [((st p).id, Rel.tagged s "primary")] })
      | .rmap _ => none
    else t2dLoop1 mainRefs rest st

/-- The dict literal `{parent_id: [rel, 'secondary'], **old}`: the new key
comes first, the old entries follow in order, and an old binding of the
same key wins. -/
def pyDictMerge (k : Nat) (v : Rel) (old : List (Nat × Rel)) : List (Nat × Rel) :=
  match lookupA old k with
  | some ov => (k, ov) :: old.filter (fun e => e.1 ≠ k)
  | none => (k, v) :: old

/-- The second loop of `tree_to_dag`: a non-main node with a bare `rel`
either redirects its edge to its group's main node (prepending a
`secondary` entry to the main's `rel` dictionary and removing itself from
its parent's children — `none` covers the `KeyError`/`TypeError`/
`ValueError` of the degenerate cases) or, unindexed, wraps its `rel` into a
one-entry dictionary. -/
def t2dLoop2 (mains : List (String × Nat)) : List (Nat × Nat) → Store → Option Store
  | [], st => some st
  | (c, p) :: rest, st =>
    match (st c).rel with
    | .rmap _ => t2dLoop2 mains rest st
    | .rstr s =>
      match (st c).index with
      | some ix =>
        match lookupA mains ix with
        | none => none
        | some m =>
          match (st m).rel with
          | .rstr _ => none
          | .rmap old =>
            let st1 := updStore st m
              { st m with rel := .rmap (pyDictMerge (st p).id (Rel.tagged s "secondary") old) }
            if ((st1 p).children).contains c then
              t2dLoop2 mains rest
                (updStore st1 p { st1 p with children := pyErase ((st1 p).children) c })
            else none
      | none =>
        t2dLoop2 mains rest (updStore st c { st c with rel := .rmap [((st p).id, Rel.plain s)] })

/-- `Lassy.tree_to_dag`: with `inline=False` the whole transformation runs
on the deep copy allocated at references `≥ b` and returns the copy's
root. -/
def treeToDag (inline : Bool) (root : Nat) (st : Store) (b fuelB fuelP : Nat) :
    Option (Nat × Store) :=
  let rootC := if inline then root else root + b
  let stC := if inline then st else shiftStore st b
  let nodes := bfsPairs stC fuelB [rootC]
  match findMainCoindex stC rootC fuelP with
  | none => none
  | some (_, mains) =>
    match t2dLoop1 (mains.map (fun x => x.2)) nodes stC with
    | none => none
    | some st1 =>
      match t2dLoop2 mains nodes st1 with
      | none => none
      | some st2 => some (rootC, st2)

/-! ## Generic lemmas about the Python list helpers -/

theorem mem_pyInsert {α : Type} (lt : α → α → Bool) (x a : α) (s : List α) :
    a ∈ pyInsert lt x s ↔ a = x ∨ a ∈ s := by
  induction s with
  | nil => simp [pyInsert]
  | cons y ys ih =>
    by_cases hy : lt y x = true
    · simp only [pyInsert, hy, if_true, List.mem_cons, ih]
      try tauto
    · simp only [pyInsert, hy, if_false, Bool.false_eq_true, List.mem_cons]
      try tauto

theorem perm_pyInsert {α : Type} (lt : α → α → Bool) (x : α) (s : List α) :
    (pyInsert lt x s).Perm (x :: s) := by
  induction s with
  | nil => simp [pyInsert]
  | cons y ys ih =>
    by_cases hy : lt y x = true
    · simp only [pyInsert, hy, if_true]
      exact (ih.cons y).trans (List.Perm.swap x y ys)
    · simp [pyInsert, hy]

theorem perm_pySorted {α : Type} (lt : α → α → Bool) (l : List α) :
    (pySorted lt l).Perm l := by
  induction l with
  | nil => simp [pySorted]
  | cons x xs ih =>
    exact (perm_pyInsert lt x (pySorted lt xs)).trans (ih.cons x)

theorem pySorted_ne_nil {α : Type} (lt : α → α → Bool) (l : List α) (h : l ≠ []) :
    pySorted lt l ≠ [] := by
  intro hnil
  have := (perm_pySorted lt l).length_eq
  rw [hnil] at this
  exact h (List.eq_nil_of_length_eq_zero this.symm)

theorem pairwise_pyInsert {α : Type} (lt : α → α → Bool)
    (hasym : ∀ a b, lt a b = true → lt b a = false)
    (htrans : ∀ a b c, lt b a = false → lt c b = false → lt c a = false)
    (x : α) (s : List α) (hs : s.Pairwise (fun a b => lt b a = false)) :
    (pyInsert lt x s).Pairwise (fun a b => lt b a = false) := by
  induction s with
  | nil => simp [pyInsert]
  | cons y ys ih =>
    rcases List.pairwise_cons.mp hs with ⟨hy, hys⟩
    by_cases hlt : lt y x = true
    · simp only [pyInsert, hlt, if_true, List.pairwise_cons]
      constructor
      · intro a ha
        rcases (mem_pyInsert lt x a ys).mp ha with h1 | h1
        · exact h1 ▸ hasym y x hlt
        · exact hy a h1
      · exact ih hys
    · simp only [pyInsert, hlt, if_false, Bool.false_eq_true, List.pairwise_cons]
      refine ⟨?_, hy, hys⟩
      intro a ha
      rcases List.mem_cons.mp ha with h1 | h1
      · rw [h1]
        exact Bool.eq_false_iff.mpr (fun hc => hlt (by rw [hc] at hlt; exact absurd rfl hlt))
      · exact htrans x y a (Bool.eq_false_iff.mpr hlt) (hy a h1)

theorem pairwise_pySorted {α : Type} (lt : α → α → Bool)
    (hasym : ∀ a b, lt a b = true → lt b a = false)
    (htrans : ∀ a b c, lt b a = false → lt c b = false → lt c a = false)
    (l : List α) : (pySorted lt l).Pairwise (fun a b => lt b a = false) := by
  induction l with
  | nil => simp [pySorted]
  | cons x xs ih => exact pairwise_pyInsert lt hasym htrans x (pySorted lt xs) ih

theorem mem_pyDedupGo {α : Type} [DecidableEq α] (l : List α) (a : α) :
    ∀ seen, a ∈ pyDedupGo seen l ↔ (a ∈ l ∧ a ∉ seen) := by
  induction l with
  | nil => intro seen; simp [pyDedupGo]
  | cons x xs ih =>
    intro seen
    by_cases hx : x ∈ seen
    · simp only [pyDedupGo, if_pos hx, ih, List.mem_cons]
      constructor
      · rintro ⟨h1, h2⟩
        exact ⟨Or.inr h1, h2⟩
      · rintro ⟨h1 | h1, h2⟩
        · exact absurd (h1 ▸ hx) h2
        · exact ⟨h1, h2⟩
    · simp only [pyDedupGo, if_neg hx, List.mem_cons, ih]
      constructor
      · rintro (h1 | ⟨h1, h2⟩)
        · exact ⟨Or.inl h1, h1 ▸ hx⟩
        · exact ⟨Or.inr h1, fun hc => h2 (Or.inr hc)⟩
      · rintro ⟨h1 | h1, h2⟩
        · exact Or.inl h1
        · by_cases hax : a = x
          · exact Or.inl hax
          · exact Or.inr ⟨h1, by simp [List.mem_cons, hax, h2]⟩

theorem mem_pyDedup {α : Type} [DecidableEq α] (l : List α) (a : α) :
    a ∈ pyDedup l ↔ a ∈ l := by
  simp [pyDedup, mem_pyDedupGo]

/-! ## Claim C7: headless structures -/

/-- **Claim C7** (confirmed).  For every child list containing no relation
whose label is in the head-candidate set `{hd, rhd, whd, cmp, crd, dlink}`
and no `crd`/`cnj` relation (for example, children carrying only `mod` and
`app`), `choose_head` raises (returns `none`, the `ValueError` for an
unknown headless structure) instead of returning a head, so type
assignment on that node aborts. -/
theorem chooseHead_headless (l : List (Nat × Rel))
    (h : ∀ x ∈ l, getRel x.2 ∉ headCandidates ∧ getRel x.2 ≠ "cnj") :
    chooseHead l = none := by
  have hfind : l.find? (fun x => headCandidates.contains (getRel x.2)) = none := by
    apply List.find?_eq_none.mpr
    intro x hx
    simpa using (h x hx).1
  have hcrd : (l.map (fun x => x.2)).contains (Rel.plain "crd") = false := by
    cases hb : (l.map (fun x => x.2)).contains (Rel.plain "crd")
    · rfl
    · obtain ⟨x, hx, hx2⟩ := List.mem_map.mp (List.mem_of_elem_eq_true hb)
      have : getRel x.2 = "crd" := by rw [hx2]; rfl
      exact absurd (this ▸ (by decide : "crd" ∈ headCandidates)) (h x hx).1
  have hcnj : (l.map (fun x => x.2)).contains (Rel.plain "cnj") = false := by
    cases hb : (l.map (fun x => x.2)).contains (Rel.plain "cnj")
    · rfl
    · obtain ⟨x, hx, hx2⟩ := List.mem_map.mp (List.mem_of_elem_eq_true hb)
      have : getRel x.2 = "cnj" := by rw [hx2]; rfl
      exact absurd this (h x hx).2
  simp only [chooseHead]
  rw [hfind, hcrd, hcnj]
  simp

/-- Witness for C7: a node whose children carry only `mod` and `app` is
detected as headless. -/
theorem chooseHead_headless_witness :
    chooseHead [(1, Rel.plain "mod"), (2, Rel.plain "app")] = none :=
  chooseHead_headless _ (by decide)

/-! ## Claim C9: majority vote -/

theorem getTypeKeys_length (st : Store) (g : Grouped) (fm : Nat)
    (sibs : List (Nat × Rel)) (keys : List String)
    (h : getTypeKeys st g fm sibs = some keys) : keys.length = sibs.length := by
  induction sibs generalizing fm keys with
  | nil =>
    cases fm with
    | zero => simp [getTypeKeys] at h
    | succ f =>
      simp only [getTypeKeys] at h
      cases h
      rfl
  | cons x xs ih =>
    cases fm with
    | zero => simp [getTypeKeys] at h
    | succ f =>
      simp only [getTypeKeys] at h
      cases hk : getTypeKey st g f x.1 with
      | none => rw [hk] at h; cases h
      | some k =>
        rw [hk] at h
        cases hks : getTypeKeys st g f xs with
        | none => rw [hks] at h; cases h
        | some ks =>
          rw [hks] at h
          simp only [Option.map_some] at h
          cases h
          simp [ih f ks hks]

/-- **Claim C9** (confirmed).  For every node whose child list in the
adjacency dictionary is non-empty and whose children's plain type keys are
all defined, `majority_vote` returns a type key whose number of occurrences
among the children's type keys is maximal (which key is returned among
tied maxima is an artifact of Python's set iteration order and is not part
of the claim). -/
theorem majorityVote_max (st : Store) (g : Grouped) (fm n : Nat)
    (sibs : List (Nat × Rel)) (keys : List String)
    (h1 : lookupG g (some n) = some sibs) (h2 : sibs ≠ [])
    (h3 : getTypeKeys st g fm sibs = some keys) :
    ∃ k, majorityVote st g (fm + 1) n = some k ∧ k ∈ keys ∧
      ∀ k', keys.count k' ≤ keys.count k := by
  have hkeysne : keys ≠ [] := by
    intro hnil
    have := getTypeKeys_length st g fm sibs keys h3
    rw [hnil] at this
    exact h2 (List.eq_nil_of_length_eq_zero this.symm)
  have hdne : pyDedup keys ≠ [] := by
    intro hnil
    obtain ⟨x, hx⟩ := List.exists_mem_of_ne_nil keys hkeysne
    have hxd : x ∈ pyDedup keys := (mem_pyDedup keys x).mpr hx
    rw [hnil] at hxd
    cases hxd
  have hsne : pySorted (fun a b => decide (keys.count b < keys.count a)) (pyDedup keys) ≠ [] :=
    pySorted_ne_nil _ (pyDedup keys) hdne
  obtain ⟨h0, t0, hs⟩ := List.exists_cons_of_ne_nil hsne
  have hpair := pairwise_pySorted (fun a b => decide (keys.count b < keys.count a))
    (by
      intro a b hab
      simp only [decide_eq_true_eq] at hab
      simp only [decide_eq_false_iff_not]
      omega)
    (by
      intro a b c ha hb
      simp only [decide_eq_false_iff_not] at ha hb
      simp only [decide_eq_false_iff_not]
      omega)
    (pyDedup keys)
  refine ⟨h0, ?_, ?_, ?_⟩
  · simp [majorityVote, h1, h3, hs]
  · have hmem : h0 ∈ pySorted (fun a b => decide (keys.count b < keys.count a)) (pyDedup keys) := by
      rw [hs]; exact List.mem_cons_self _ _
    exact (mem_pyDedup keys h0).mp ((perm_pySorted _ (pyDedup keys)).mem_iff.mp hmem)
  · intro k'
    by_cases hk' : k' ∈ keys
    · have hk'd : k' ∈ pySorted (fun a b => decide (keys.count b < keys.count a)) (pyDedup keys) :=
        (perm_pySorted _ (pyDedup keys)).mem_iff.mpr ((mem_pyDedup keys k').mpr hk')
      rw [hs] at hk'd
      rcases List.mem_cons.mp hk'd with hh | hh
      · rw [hh]
      · rw [hs] at hpair
        have := (List.pairwise_cons.mp hpair).1 k' hh
        simp only [decide_eq_false_iff_not] at this
        omega
    · have : keys.count k' = 0 := List.count_eq_zero.mpr hk'
      omega

/-- The concrete store of the C9 witness: a `conj` parent 0 with children
1, 2 (category `np`) and 3 (category `smain`). -/
def mvWitStore : Store := fun r =>
  if r = 1 then { id := 1, cat := some "np" }
  else if r = 2 then { id := 2, cat := some "np" }
  else if r = 3 then { id := 3, cat := some "smain" }
  else { id := 0, cat := some "conj" }

/-- The concrete adjacency dictionary of the C9 witness. -/
def mvWitGrouped : Grouped :=
  [(some 0, [(1, Rel.plain "cnj"), (2, Rel.plain "cnj"), (3, Rel.plain "cnj")])]

/-- Witness for C9: on the concrete conjunction, the returned key has
maximal count among the children's type keys. -/
theorem majorityVote_max_witness :
    ∃ k, majorityVote mvWitStore mvWitGrouped 5 0 = some k ∧
      k ∈ ["np", "np", "smain"] ∧
      ∀ k', (["np", "np", "smain"] : List String).count k' ≤
        (["np", "np", "smain"] : List String).count k :=
  majorityVote_max mvWitStore mvWitGrouped 4 0
    [(1, Rel.plain "cnj"), (2, Rel.plain "cnj"), (3, Rel.plain "cnj")]
    ["np", "np", "smain"] (by decide) (by decide) (by decide)

/-! ## Claim C5: residual secondary edges under `remove_abstract_so` -/

/-- The C5 failing input, store: a `ppart` parent 0 with two leaf children
1 and 2, both attached by `Secondary` `su`/`obj1` edges recorded in their
`rel` dictionaries. -/
def rasBugStore : Store := fun r =>
  if r = 1 then { id := 1, word := some "a", rel := .rmap [(0, Rel.tagged "su" "secondary")] }
  else if r = 2 then { id := 2, word := some "b", rel := .rmap [(0, Rel.tagged "obj1" "secondary")] }
  else { id := 0, cat := some "ppart" }

/-- The C5 failing input, adjacency dictionary: the two `Secondary`
`su`/`obj1` edges are adjacent in the child list. -/
def rasBugGrouped : Grouped :=
  [(some 0, [(1, Rel.tagged "su" "secondary"), (2, Rel.tagged "obj1" "secondary")])]

/-- **Claim C5** (code bug).  `remove_abstract_so` is claimed to leave no
`Secondary` `su`/`obj1` edge under any `ppart`/`inf` parent.  On a `ppart`
parent with two adjacent such edges, the in-place `remove` during iteration
skips the second one: the edge `(2, [obj1, secondary])` survives in the
dictionary and node 2's `rel` bookkeeping still holds the parent entry
(node 1's was removed and cleaned as claimed). -/
theorem removeAbstractSo_skips_adjacent :
    (removeAbstractSo rasBugGrouped rasBugStore).map (fun p => p.1) =
      some [(some 0, [(2, Rel.tagged "obj1" "secondary")])] ∧
    (removeAbstractSo rasBugGrouped rasBugStore).map (fun p => ((p.2 1).rel, (p.2 2).rel)) =
      some (.rmap [], .rmap [(0, Rel.tagged "obj1" "secondary")]) := by
  constructor
  · decide
  · decide

/-! ## Claim C3: stale edges after `split_dag` -/

/-- The C3 failing input, store: no node carries a category in the default
remove set, so only the relation filter and the cascade act. -/
def splitBugStore : Store := fun _ => { id := 0 }

/-- The C3 failing input, adjacency dictionary: parents 1 and 2 lose their
only children to the `dp` relation filter, and both resulting empty parents
are adjacent children of parent 0. -/
def splitBugGrouped : Grouped :=
  [(some 0, [(1, Rel.plain "a"), (2, Rel.plain "b")]),
   (some 1, [(3, Rel.plain "dp")]),
   (some 2, [(4, Rel.plain "dp")])]

/-- **Claim C3** (code bug).  After `split_dag`, no child entry may refer to
a deleted key.  Parents 1 and 2 become empty and are deleted by the
cascade, but the in-place `remove` during iteration of parent 0's child
list skips the entry following a removed one: the edge to deleted parent 2
survives (the other conjunct of the claim — no key with an empty child
list — does hold on the output). -/
theorem splitDag_stale_edge :
    splitDag splitBugStore defaultCatsToRemove defaultRelsToRemove splitBugGrouped =
      [(some 0, [(2, Rel.plain "b")])] ∧
    some 2 ∈ keysG splitBugGrouped ∧
    some 2 ∉ keysG (splitDag splitBugStore defaultCatsToRemove defaultRelsToRemove splitBugGrouped) := by
  refine ⟨by decide, by decide, by decide⟩

/-! ## Claim C6: idempotence of `collapse_mwu` -/

theorem collapseMwuLoop_spec (fm : Nat) (g : Grouped) :
    ∀ (ks : List (Option Nat)) (st : Store) (acc : List (Option Nat))
      (st' : Store) (acc' : List (Option Nat)),
      collapseMwuLoop fm g ks st acc = some (st', acc') →
      (∀ r : Nat, some r ∉ acc' → st' r = st r) ∧
      (∀ k : Nat, some k ∈ ks → some k ∉ acc' → (st' k).cat ≠ some "mwu") ∧
      (∀ x, x ∈ acc → x ∈ acc') := by
  intro ks
  induction ks with
  | nil =>
    intro st acc st' acc' h
    simp only [collapseMwuLoop] at h
    cases h
    exact ⟨fun _ _ => rfl, fun k hk => absurd hk (List.not_mem_nil _), fun x hx => hx⟩
  | cons k? rest ih =>
    intro st acc st' acc' h
    match k? with
    | none =>
      simp only [collapseMwuLoop] at h
      obtain ⟨h1, h2, h3⟩ := ih st acc st' acc' h
      refine ⟨h1, ?_, h3⟩
      intro k hk hk'
      rcases List.mem_cons.mp hk with hc | hc
      · exact Option.noConfusion hc
      · exact h2 k hc hk'
    | some k =>
      simp only [collapseMwuLoop] at h
      cases hcat : (st k).cat with
      | none =>
        simp only [hcat] at h
        obtain ⟨h1, h2, h3⟩ := ih st acc st' acc' h
        refine ⟨h1, ?_, h3⟩
        intro k0 hk hk'
        rcases List.mem_cons.mp hk with hc | hc
        · obtain rfl : k0 = k := Option.some.inj hc
          rw [h1 k0 hk', hcat]
          exact fun hx => Option.noConfusion hx
        · exact h2 k0 hc hk'
      | some c =>
        simp only [hcat] at h
        by_cases hmwu : c = "mwu"
        · rw [if_pos hmwu] at h
          split at h
          · exact Option.noConfusion h
          · split at h
            · exact Option.noConfusion h
            · split at h
              · exact Option.noConfusion h
              · obtain ⟨h1, h2, h3⟩ := ih _ _ st' acc' h
                have hkacc : some k ∈ acc' := h3 (some k) (by simp)
                refine ⟨?_, ?_, ?_⟩
                · intro r hr
                  rw [h1 r hr]
                  have hrk : r ≠ k := fun hc => hr (hc ▸ hkacc)
                  simp [updStore, hrk]
                · intro k0 hk0 hk0'
                  rcases List.mem_cons.mp hk0 with hc | hc
                  · obtain rfl : k0 = k := Option.some.inj hc
                    exact absurd hkacc hk0'
                  · exact h2 k0 hc hk0'
                · intro x hx
                  exact h3 x (List.mem_append_left _ hx)
        · rw [if_neg hmwu] at h
          obtain ⟨h1, h2, h3⟩ := ih st acc st' acc' h
          refine ⟨h1, ?_, h3⟩
          intro k0 hk0 hk0'
          rcases List.mem_cons.mp hk0 with hc | hc
          · obtain rfl : k0 = k := Option.some.inj hc
            rw [h1 k0 hk0', hcat]
            intro hx
            cases hx
            exact hmwu rfl
          · exact h2 k0 hc hk0'

theorem collapseMwuLoop_noop (fm : Nat) (g : Grouped) :
    ∀ (ks : List (Option Nat)) (st : Store) (acc : List (Option Nat)),
      (∀ k : Nat, some k ∈ ks → (st k).cat ≠ some "mwu") →
      collapseMwuLoop fm g ks st acc = some (st, acc) := by
  intro ks
  induction ks with
  | nil => intro st acc _; rfl
  | cons k? rest ih =>
    intro st acc hk
    match k? with
    | none =>
      simp only [collapseMwuLoop]
      exact ih st acc (fun k hmem => hk k (List.mem_cons_of_mem _ hmem))
    | some k =>
      simp only [collapseMwuLoop]
      split
      · exact ih st acc (fun k0 hmem => hk k0 (List.mem_cons_of_mem _ hmem))
      · next c hcat =>
        have hne : c ≠ "mwu" := by
          intro hc
          exact hk k (List.mem_cons_self _ _) (by rw [hcat, hc])
        rw [if_neg hne]
        exact ih st acc (fun k0 hmem => hk k0 (List.mem_cons_of_mem _ hmem))

theorem mem_keysG_delKeyG (g : Grouped) (k0 k? : Option Nat) :
    k? ∈ keysG (delKeyG g k0) ↔ k? ∈ keysG g ∧ k? ≠ k0 := by
  simp only [keysG, delKeyG, List.mem_map, List.mem_filter]
  constructor
  · rintro ⟨e, ⟨he, hne⟩, hfst⟩
    refine ⟨⟨e, he, hfst⟩, ?_⟩
    simpa [hfst] using hne
  · rintro ⟨⟨e, he, hfst⟩, hne⟩
    exact ⟨e, ⟨he, by simpa [hfst] using hne⟩, hfst⟩

theorem mem_keysG_foldl_delKeyG (ks : List (Option Nat)) (g : Grouped) (k? : Option Nat) :
    k? ∈ keysG (ks.foldl delKeyG g) ↔ k? ∈ keysG g ∧ k? ∉ ks := by
  induction ks generalizing g with
  | nil => simp
  | cons k0 rest ih =>
    simp only [List.foldl, ih, mem_keysG_delKeyG, List.mem_cons]
    constructor
    · rintro ⟨⟨h1, h2⟩, h3⟩
      exact ⟨h1, by rintro (hc | hc); exact h2 hc; exact h3 hc⟩
    · rintro ⟨h1, h2⟩
      exact ⟨⟨h1, fun hc => h2 (Or.inl hc)⟩, fun hc => h2 (Or.inr hc)⟩

/-- **Claim C6** (confirmed).  Applying `collapse_mwu` a second time to its
own (successful) output changes nothing: the first pass leaves no parent
key whose category is `mwu`, so the second pass takes no branch and
returns the dictionary and the store unchanged. -/
theorem collapseMwu_idempotent (fm : Nat) (g : Grouped) (st : Store)
    (p : Grouped × Store) (h : collapseMwu fm g st = some p) :
    collapseMwu fm p.1 p.2 = some p ∧
    (∀ k : Nat, some k ∈ keysG p.1 → (p.2 k).cat ≠ some "mwu") := by
  simp only [collapseMwu] at h
  cases hl : collapseMwuLoop fm g (keysG g) st [] with
  | none => rw [hl] at h; cases h
  | some q =>
    rw [hl] at h
    obtain ⟨st1, toRemove⟩ := q
    simp only at h
    cases h
    obtain ⟨h1, h2, _⟩ := collapseMwuLoop_spec fm g (keysG g) st [] st1 toRemove hl
    have hnomwu : ∀ k : Nat, some k ∈ keysG (toRemove.foldl delKeyG g) →
        (st1 k).cat ≠ some "mwu" := by
      intro k hk
      obtain ⟨hmem, hnot⟩ := (mem_keysG_foldl_delKeyG toRemove g (some k)).mp hk
      exact h2 k hmem hnot
    constructor
    · simp only [collapseMwu]
      rw [collapseMwuLoop_noop fm (toRemove.foldl delKeyG g)
        (keysG (toRemove.foldl delKeyG g)) st1 [] hnomwu]
      rfl
    · exact hnomwu

/-- The C6 witness store: 0 is an `mwu` parent with word-bearing children
1 and 2; 3 is an ordinary parent. -/
def cmwuWitSt : Store := fun r =>
  if r = 1 then { id := 1, word := some "de", pos := some "det", begin := 0, endIdx := 1 }
  else if r = 2 then { id := 2, word := some "kat", pos := some "noun", begin := 1, endIdx := 2 }
  else if r = 3 then { id := 3, cat := some "np" }
  else { id := 0, cat := some "mwu", begin := 0, endIdx := 2 }

/-- The C6 witness dictionary. -/
def cmwuWitG : Grouped :=
  [(some 0, [(1, Rel.plain "mwp"), (2, Rel.plain "mwp")]),
   (some 3, [(0, Rel.plain "hd")])]

/-- The C6 witness run's result. -/
def cmwuWitRes : Grouped × Store :=
  (collapseMwu 10 cmwuWitG cmwuWitSt).getD ([], cmwuWitSt)

/-- Witness for C6: the concrete collapse succeeds and re-applying it to
its output is the identity. -/
theorem collapseMwu_idempotent_witness :
    collapseMwu 10 cmwuWitRes.1 cmwuWitRes.2 = some cmwuWitRes ∧
    (∀ k : Nat, some k ∈ keysG cmwuWitRes.1 → (cmwuWitRes.2 k).cat ≠ some "mwu") :=
  collapseMwu_idempotent 10 cmwuWitG cmwuWitSt cmwuWitRes rfl

/-! ## Dictionary lemmas -/

theorem lookupA_nil {κ β : Type} [DecidableEq κ] (k : κ) :
    lookupA ([] : List (κ × β)) k = none := rfl

theorem lookupA_cons {κ β : Type} [DecidableEq κ] (x : κ × β) (xs : List (κ × β)) (k : κ) :
    lookupA (x :: xs) k = if x.1 = k then some x.2 else lookupA xs k := by
  by_cases hx : x.1 = k
  · simp [lookupA, List.find?, hx]
  · simp [lookupA, List.find?, hx]

theorem lookupA_map_update_self {κ β : Type} [DecidableEq κ] (k : κ) (v : β) :
    ∀ d : List (κ × β), (d.find? (fun e => e.1 = k)).isSome = true →
      lookupA (d.map (fun e => if e.1 = k then (k, v) else e)) k = some v := by
  intro d
  induction d with
  | nil => intro h; simp at h
  | cons x xs ih =>
    intro h
    rw [List.map_cons, lookupA_cons]
    by_cases hx : x.1 = k
    · simp [hx]
    · rw [if_neg hx, if_neg hx]
      apply ih
      rwa [List.find?_cons_of_neg _ (by simp [hx])] at h

theorem lookupA_append_single_self {κ β : Type} [DecidableEq κ] (k : κ) (v : β) :
    ∀ d : List (κ × β), ¬ (d.find? (fun e => e.1 = k)).isSome = true →
      lookupA (d ++ [(k, v)]) k = some v := by
  intro d
  induction d with
  | nil => intro _; simp [lookupA_cons]
  | cons x xs ih =>
    intro h
    have hx : ¬ x.1 = k := by
      intro hc
      exact h (by rw [List.find?_cons_of_pos _ (by simp [hc])]; rfl)
    rw [List.cons_append, lookupA_cons, if_neg hx]
    apply ih
    intro hc
    apply h
    rwa [List.find?_cons_of_neg _ (by simp [hx])]

theorem lookupA_dictSetA_self {κ β : Type} [DecidableEq κ] (d : List (κ × β)) (k : κ) (v : β) :
    lookupA (dictSetA d k v) k = some v := by
  unfold dictSetA
  split_ifs with h
  · exact lookupA_map_update_self k v d h
  · exact lookupA_append_single_self k v d h

theorem lookupA_map_update_ne {κ β : Type} [DecidableEq κ] (k k' : κ) (v : β) (hne : k' ≠ k) :
    ∀ d : List (κ × β),
      lookupA (d.map (fun e => if e.1 = k then (k, v) else e)) k' = lookupA d k' := by
  intro d
  induction d with
  | nil => rfl
  | cons x xs ih =>
    rw [List.map_cons, lookupA_cons, lookupA_cons]
    by_cases hx : x.1 = k
    · rw [if_pos hx]
      rw [show ((k, v) : κ × β).1 = k from rfl]
      rw [if_neg (fun hc => hne hc.symm), if_neg (by rw [hx]; exact fun hc => hne hc.symm)]
      exact ih
    · rw [if_neg hx]
      by_cases hx' : x.1 = k'
      · rw [if_pos hx', if_pos hx']
      · rw [if_neg hx', if_neg hx']
        exact ih

theorem lookupA_append_single_ne {κ β : Type} [DecidableEq κ] (k k' : κ) (v : β) (hne : k' ≠ k) :
    ∀ d : List (κ × β), lookupA (d ++ [(k, v)]) k' = lookupA d k' := by
  intro d
  induction d with
  | nil =>
    rw [List.nil_append, lookupA_cons, lookupA_nil, if_neg (fun hc => hne hc.symm)]
  | cons x xs ih =>
    rw [List.cons_append, lookupA_cons, lookupA_cons]
    by_cases hx' : x.1 = k'
    · rw [if_pos hx', if_pos hx']
    · rw [if_neg hx', if_neg hx']
      exact ih

theorem lookupA_dictSetA_ne {κ β : Type} [DecidableEq κ] (d : List (κ × β)) (k k' : κ) (v : β)
    (hne : k' ≠ k) : lookupA (dictSetA d k v) k' = lookupA d k' := by
  unfold dictSetA
  split_ifs with h
  · exact lookupA_map_update_ne k k' v hne d
  · exact lookupA_append_single_ne k k' v hne d

theorem lookupA_filter_self {κ β : Type} [DecidableEq κ] (d : List (κ × β)) (k : κ) :
    lookupA (d.filter (fun e => e.1 ≠ k)) k = none := by
  induction d with
  | nil => rfl
  | cons x xs ih =>
    by_cases hx : x.1 = k
    · simpa [List.filter, hx] using ih
    · rw [List.filter_cons_of_pos (by simp [hx]), lookupA_cons, if_neg hx]
      exact ih

theorem updStore_self (st : Store) (r : Nat) (n : Node) : updStore st r n r = n := by
  simp [updStore]

theorem updStore_ne (st : Store) (r : Nat) (n : Node) (r' : Nat) (h : r' ≠ r) :
    updStore st r n r' = st r' := by
  simp [updStore, h]

theorem lookupG_dictSetG_self (g : Grouped) (k : Option Nat) (v : List (Nat × Rel)) :
    lookupG (dictSetG g k v) k = some v :=
  lookupA_dictSetA_self g k v

theorem lookupG_dictSetG_ne (g : Grouped) (k k' : Option Nat) (v : List (Nat × Rel))
    (hne : k' ≠ k) : lookupG (dictSetG g k v) k' = lookupG g k' :=
  lookupA_dictSetA_ne g k k' v hne

/-! ## Claim C1: abstract-argument relabeling -/

/-- The C1 input, store: clause 0 (`smain`) holds the real argument (node
1) through a `Secondary` `obj1` edge; complement 4 (`ppart`) holds the
coindexed abstract `Primary` `obj1` edge to the same node. -/
def aosBugStore : Store := fun r =>
  if r = 1 then
    { id := 1, word := some "hem", pos := some "pron", index := some "i",
      rel := .rmap [(4, Rel.tagged "obj1" "primary"), (0, Rel.tagged "obj1" "secondary")] }
  else if r = 4 then { id := 4, cat := some "ppart" }
  else if r = 5 then { id := 5, word := some "gezien", pos := some "verb" }
  else { id := 0, cat := some "smain" }

/-- The C1 input, adjacency dictionary. -/
def aosBugGrouped : Grouped :=
  [(some 0, [(1, Rel.tagged "obj1" "secondary"), (4, Rel.plain "vc")]),
   (some 4, [(1, Rel.tagged "obj1" "primary"), (5, Rel.plain "hd")])]

/-- **Claim C1, counterexample.**  On an `obj1` promotion the dictionary
edits carry the relation label `obj1` (the abstract `Primary` edge is
removed from the complement, the `Secondary` edge is removed at the clause
and re-added as `Primary` `obj1`), but the node's own `rel`-attribute
bookkeeping is set to `['su', 'primary']` — not to the promoted edge's
label `obj1` as the claim states. -/
theorem abstractObjectToSubject_hardcodes_su :
    (abstractObjectToSubject aosBugGrouped aosBugStore).map (fun p => p.1) =
      some [(some 0, [(4, Rel.plain "vc"), (1, Rel.tagged "obj1" "primary")]),
            (some 4, [(5, Rel.plain "hd")])] ∧
    (abstractObjectToSubject aosBugGrouped aosBugStore).map (fun p => (p.2 1).rel) =
      some (.rmap [(0, Rel.tagged "su" "primary")]) ∧
    Rel.tagged "su" "primary" ≠ Rel.tagged "obj1" "primary" := by
  exact ⟨by decide, by decide, by decide⟩

/-- **Claim C1** (corrected; amended statement).  For every clause key with
category in `{ssub, smain, sv1}` for which the function finds a real
argument on a `Secondary` `su`/`obj1` edge and a coindexed abstract
argument on a `Primary` `su`/`obj1` edge inside the embedded `ppart`/`inf`
complement (the hypotheses spell out the source's finder chain; in a
resolved DAG the coindexed argument is the same node, `ha`), the step
removes the abstract `Primary` edge from the complement's child list,
replaces the clause's `Secondary` edge by an appended `Primary` edge with
the same label, and rewrites the node's `rel` bookkeeping by deleting the
complement entry and setting the clause entry to `['su', 'primary']` — the
hard-coded label `su`, not the promoted edge's label as originally
claimed. -/
theorem aosStep_promotes (g : Grouped) (st : Store) (mp pp a realRef : Nat) (c : String)
    (kids parKids ppKids : List (Nat × Rel)) (realRel arel : Rel) (m : List (Nat × Rel))
    (h1 : (st mp).cat = some c) (h2 : c ∈ clauseCats)
    (h3 : lookupG g (some mp) = some kids)
    (h4 : findRealSO kids = some (realRef, realRel))
    (h5 : lookupG g (some (aosPar st kids mp)) = some parKids)
    (h6 : findPpartInf st parKids = some pp)
    (h7 : lookupG g (some pp) = some ppKids)
    (h8 : findAbstractIn st ((st realRef).index) ppKids = some (some (a, arel)))
    (ha : a = realRef)
    (h9 : (st a).rel = .rmap m)
    (h10 : (m.find? (fun e => e.1 = (st pp).id)).isSome = true)
    (h11 : (st pp).id ≠ (st mp).id) :
    aosStep g st (some mp) = some
      (dictSetG (dictSetG g (some pp) (pyErase ppKids (a, .tagged (getRel arel) "primary")))
        (some mp)
        (pyErase kids (a, .tagged (getRel realRel) "secondary") ++
          [(a, .tagged (getRel realRel) "primary")]),
       updStore st a { st a with rel := .rmap (dictSetA
         (m.filter (fun e => e.1 ≠ (st pp).id)) ((st mp).id) (.tagged "su" "primary")) }) ∧
    (∀ p, aosStep g st (some mp) = some p →
      lookupG p.1 (some pp) = some (pyErase ppKids (a, .tagged (getRel arel) "primary")) ∧
      lookupG p.1 (some mp) = some
        (pyErase kids (a, .tagged (getRel realRel) "secondary") ++
          [(a, .tagged (getRel realRel) "primary")]) ∧
      relLookup ((p.2 a).rel) ((st mp).id) = some (.tagged "su" "primary") ∧
      relLookup ((p.2 a).rel) ((st pp).id) = none) := by
  have hclauseList : c = "ssub" ∨ c = "smain" ∨ c = "sv1" := by
    simpa [clauseCats] using h2
  have hcontains : clauseCats.contains c = true := by
    rcases hclauseList with hc | hc | hc <;> subst hc <;> decide
  have hp := List.find?_some h4
  have hrel : realRel = .tagged (getRel realRel) "secondary" := by
    simp only [Bool.or_eq_true, decide_eq_true_eq] at hp
    rcases hp with hc | hc <;> rw [hc] <;> rfl
  have hmemReal : (realRef, realRel) ∈ kids := List.mem_of_find?_eq_some h4
  have hppcat : (st pp).cat = some "ppart" ∨ (st pp).cat = some "inf" := by
    simp only [findPpartInf, Option.map_eq_some'] at h6
    obtain ⟨t, ht, hte⟩ := h6
    have hpt := List.find?_some ht
    simp only [Bool.or_eq_true, decide_eq_true_eq] at hpt
    rw [← hte]
    exact hpt
  have hnepm : pp ≠ mp := by
    intro he
    subst he
    rw [h1] at hppcat
    rcases hclauseList with hc | hc | hc <;> subst hc <;>
      rcases hppcat with hcc | hcc <;> exact absurd hcc (by decide)
  have hstep : aosStep g st (some mp) =
      aosMutate g st mp (getRel realRel) pp ppKids (a, arel) := by
    simp only [aosStep, h1, hcontains, Bool.true_eq_false, if_false, h3, h4, h5, h6, h7, h8]
  have htarget : kids.contains (a, Rel.tagged (getRel realRel) "secondary") = true := by
    have : (a, Rel.tagged (getRel realRel) "secondary") = (realRef, realRel) := by
      rw [ha, ← hrel]
    rw [this]
    exact List.elem_eq_true_of_mem hmemReal
  have hmut : aosMutate g st mp (getRel realRel) pp ppKids (a, arel) = some
      (dictSetG (dictSetG g (some pp) (pyErase ppKids (a, .tagged (getRel arel) "primary")))
        (some mp)
        (pyErase kids (a, .tagged (getRel realRel) "secondary") ++
          [(a, .tagged (getRel realRel) "primary")]),
       updStore st a { st a with rel := .rmap (dictSetA
         (m.filter (fun e => e.1 ≠ (st pp).id)) ((st mp).id) (.tagged "su" "primary")) }) := by
    have hlk1 : lookupG (dictSetG g (some pp)
        (pyErase ppKids (a, Rel.tagged (getRel arel) "primary"))) (some mp) = some kids := by
      rw [lookupG_dictSetG_ne _ _ _ _ (by simpa using Ne.symm hnepm)]
      exact h3
    simp only [aosMutate, hlk1, htarget, if_true, relMapDel, h9, h10, if_pos, relMapSet]
  have hfinal := hstep.trans hmut
  refine ⟨hfinal, ?_⟩
  rintro p hps
  rw [hfinal] at hps
  cases hps
  refine ⟨?_, ?_, ?_, ?_⟩
  · rw [lookupG_dictSetG_ne _ _ _ _ (by simpa using hnepm), lookupG_dictSetG_self]
  · rw [lookupG_dictSetG_self]
  · dsimp only
    rw [updStore_self]
    show lookupA (dictSetA (m.filter (fun e => e.1 ≠ (st pp).id))
      ((st mp).id) (.tagged "su" "primary")) ((st mp).id) = some (.tagged "su" "primary")
    exact lookupA_dictSetA_self _ _ _
  · dsimp only
    rw [updStore_self]
    show lookupA (dictSetA (m.filter (fun e => e.1 ≠ (st pp).id))
      ((st mp).id) (.tagged "su" "primary")) ((st pp).id) = none
    rw [lookupA_dictSetA_ne _ _ _ _ h11]
    exact lookupA_filter_self m ((st pp).id)

/-- Witness for C1 (amended): the concrete `obj1` control construction,
with every hypothesis discharged by computation. -/
theorem aosStep_promotes_witness :
    aosStep aosBugGrouped aosBugStore (some 0) = some
      (dictSetG (dictSetG aosBugGrouped (some 4)
          (pyErase [(1, Rel.tagged "obj1" "primary"), (5, Rel.plain "hd")]
            (1, .tagged (getRel (Rel.tagged "obj1" "primary")) "primary")))
        (some 0)
        (pyErase [(1, Rel.tagged "obj1" "secondary"), (4, Rel.plain "vc")]
            (1, .tagged (getRel (Rel.tagged "obj1" "secondary")) "secondary") ++
          [(1, .tagged (getRel (Rel.tagged "obj1" "secondary")) "primary")]),
       updStore aosBugStore 1 { aosBugStore 1 with rel := .rmap (dictSetA
         (([(4, Rel.tagged "obj1" "primary"), (0, Rel.tagged "obj1" "secondary")]).filter
           (fun e => e.1 ≠ (aosBugStore 4).id))
         ((aosBugStore 0).id) (.tagged "su" "primary")) }) ∧
    (∀ p, aosStep aosBugGrouped aosBugStore (some 0) = some p →
      lookupG p.1 (some 4) = some (pyErase [(1, Rel.tagged "obj1" "primary"), (5, Rel.plain "hd")]
        (1, .tagged (getRel (Rel.tagged "obj1" "primary")) "primary")) ∧
      lookupG p.1 (some 0) = some
        (pyErase [(1, Rel.tagged "obj1" "secondary"), (4, Rel.plain "vc")]
            (1, .tagged (getRel (Rel.tagged "obj1" "secondary")) "secondary") ++
          [(1, .tagged (getRel (Rel.tagged "obj1" "secondary")) "primary")]) ∧
      relLookup ((p.2 1).rel) ((aosBugStore 0).id) = some (.tagged "su" "primary") ∧
      relLookup ((p.2 1).rel) ((aosBugStore 4).id) = none) :=
  aosStep_promotes aosBugGrouped aosBugStore 0 4 1 1 "smain"
    [(1, Rel.tagged "obj1" "secondary"), (4, Rel.plain "vc")]
    [(1, Rel.tagged "obj1" "secondary"), (4, Rel.plain "vc")]
    [(1, Rel.tagged "obj1" "primary"), (5, Rel.plain "hd")]
    (Rel.tagged "obj1" "secondary") (Rel.tagged "obj1" "primary")
    [(4, Rel.tagged "obj1" "primary"), (0, Rel.tagged "obj1" "secondary")]
    (by decide) (by decide) (by decide) (by decide) (by decide) (by decide)
    (by decide) (by decide) (by decide) (by decide) (by decide) (by decide)

/-! ## Claim C4: main coindex selection -/

/-- The C4 input: a root (10) whose two children are coindexed with index
`"1"`; the qualifying member with the lower `id` attribute (3, at ref 12)
comes second in document order. -/
def fmcBugStore : Store := fun r =>
  if r = 11 then { id := 5, index := some "1", word := some "w" }
  else if r = 12 then { id := 3, index := some "1", cat := some "np" }
  else { id := 10, cat := some "top", children := [11, 12] }

/-- **Claim C4, counterexample.**  `find_main_coindex` picks the first
member in document order carrying `cat`/`word` — here the node with `id`
5 — although a qualifying member with the strictly lower identifier 3
exists in the same group, contradicting the lowest-identifier claim. -/
theorem findMainCoindex_not_lowest_id :
    (findMainCoindex fmcBugStore 10 5).map (fun p => lookupA p.2 "1") = some (some 11) ∧
    (fmcBugStore 11).id = 5 ∧ (fmcBugStore 12).id = 3 ∧
    qualifiesB fmcBugStore 12 = true ∧ (fmcBugStore 12).index = some "1" ∧ 3 < 5 := by
  exact ⟨by decide, by decide, by decide, by decide, by decide, by decide⟩

/-- The non-strict key order along a sorted-by-index list. -/
def keyLe (st : Store) (a b : Nat) : Prop :=
  strLt (indexKey st b) (indexKey st a) = false

theorem pyInsert_filter {α : Type} (lt : α → α → Bool) (p : α → Bool) (x : α)
    (hcomp : ∀ y, lt y x = true → p x = true → p y = false) (s : List α) :
    (pyInsert lt x s).filter p = if p x then x :: s.filter p else s.filter p := by
  induction s with
  | nil => cases hpx : p x <;> simp [pyInsert, hpx]
  | cons y ys ih =>
    by_cases hy : lt y x = true
    · have h1 : pyInsert lt x (y :: ys) = y :: pyInsert lt x ys := by rw [pyInsert, if_pos hy]
      cases hpx : p x with
      | true =>
        have hpy : p y = false := hcomp y hy hpx
        simp [h1, List.filter_cons, hpx, hpy, ih]
      | false =>
        simp [h1, List.filter_cons, hpx, ih]
    · have h1 : pyInsert lt x (y :: ys) = x :: y :: ys := by rw [pyInsert, if_neg hy]
      cases hpx : p x with
      | true => simp [h1, List.filter_cons, hpx]
      | false => simp [h1, List.filter_cons, hpx]

theorem pySorted_filter_stable {α : Type} (lt : α → α → Bool) (p : α → Bool)
    (hcomp : ∀ x y, lt y x = true → p x = true → p y = false) (l : List α) :
    (pySorted lt l).filter p = l.filter p := by
  induction l with
  | nil => rfl
  | cons x xs ih =>
    rw [pySorted, pyInsert_filter lt p x (hcomp x)]
    cases hpx : p x with
    | true => simp [List.filter_cons, hpx, ih]
    | false => simp [List.filter_cons, hpx, ih]

theorem dropWhile_head_false {α : Type} (p : α → Bool) :
    ∀ (l : List α) (x : α) (xs : List α), l.dropWhile p = x :: xs → p x = false := by
  intro l
  induction l with
  | nil => intro x xs h; cases h
  | cons y ys ih =>
    intro x xs h
    cases hy : p y with
    | true =>
      rw [List.dropWhile_cons_of_pos hy] at h
      exact ih x xs h
    | false =>
      rw [List.dropWhile_cons_of_neg (by simp [hy])] at h
      cases h
      exact hy

theorem no_eqkey_in_dropWhile (st : Store) (x : Nat) (xs : List Nat)
    (hpw : (x :: xs).Pairwise (keyLe st)) :
    ∀ y ∈ xs.dropWhile (fun r => indexKey st r = indexKey st x),
      ¬ indexKey st y = indexKey st x := by
  intro y hy hkey
  set p : Nat → Bool := fun r => indexKey st r = indexKey st x with hp
  cases hds : xs.dropWhile p with
  | nil => rw [hds] at hy; cases hy
  | cons d0 rest =>
    rw [hds] at hy
    have hd0 : p d0 = false := dropWhile_head_false p xs d0 rest hds
    have hsubl : List.Sublist (d0 :: rest) xs := hds ▸ List.dropWhile_sublist p
    have hd0xs : d0 ∈ xs := hsubl.mem (List.mem_cons_self _ _)
    obtain ⟨hx, hxs⟩ := List.pairwise_cons.mp hpw
    have hxd0 : strLt (indexKey st d0) (indexKey st x) = false := hx d0 hd0xs
    have hd0y : strLt (indexKey st x) (indexKey st d0) = false := by
      rcases List.mem_cons.mp hy with h1 | h1
      · subst h1
        simp [hp, hkey] at hd0
      · have hpds : (d0 :: rest).Pairwise (keyLe st) := List.Pairwise.sublist hsubl hxs
        have hle := (List.pairwise_cons.mp hpds).1 y h1
        rw [keyLe, hkey] at hle
        exact hle
    have : indexKey st x = indexKey st d0 := strLt_eq_of_not_lt _ _ hd0y hxd0
    simp [hp, this.symm] at hd0

theorem groupRunsGo_eq (st : Store) :
    ∀ (l : List Nat) (k : String) (run : List Nat),
      groupRunsGo st k run l =
        (k, run.reverse ++ l.takeWhile (fun y => indexKey st y = k)) ::
          groupRuns st (l.dropWhile (fun y => indexKey st y = k)) := by
  intro l
  induction l with
  | nil => intro k run; simp [groupRunsGo, groupRuns]
  | cons x xs ih =>
    intro k run
    by_cases hx : indexKey st x = k
    · rw [groupRunsGo, if_pos hx, ih,
        List.takeWhile_cons_of_pos (by simp [hx]),
        List.dropWhile_cons_of_pos (by simp [hx])]
      simp
    · rw [groupRunsGo, if_neg hx,
        List.takeWhile_cons_of_neg (by simp [hx]),
        List.dropWhile_cons_of_neg (by simp [hx])]
      simp [groupRuns]

theorem groupRuns_cons (st : Store) (x : Nat) (xs : List Nat) :
    groupRuns st (x :: xs) =
      (indexKey st x, x :: xs.takeWhile (fun y => indexKey st y = indexKey st x)) ::
        groupRuns st (xs.dropWhile (fun y => indexKey st y = indexKey st x)) := by
  rw [groupRuns, groupRunsGo_eq]
  simp

theorem groupRuns_keys_subset (st : Store) :
    ∀ (n : Nat) (l : List Nat), l.length ≤ n →
      ∀ k ∈ (groupRuns st l).map (fun e => e.1), ∃ r ∈ l, indexKey st r = k := by
  intro n
  induction n with
  | zero =>
    intro l hl k hk
    rw [List.length_eq_zero.mp (Nat.le_zero.mp hl)] at hk
    simp [groupRuns] at hk
  | succ n ih =>
    intro l hl k hk
    cases l with
    | nil => simp [groupRuns] at hk
    | cons x xs =>
      rw [groupRuns_cons, List.map_cons, List.mem_cons] at hk
      rcases hk with h1 | h1
      · exact ⟨x, List.mem_cons_self _ _, h1.symm⟩
      · have hlen : (xs.dropWhile (fun y => indexKey st y = indexKey st x)).length ≤ n := by
          have := (List.dropWhile_sublist
            (p := fun y => decide (indexKey st y = indexKey st x)) (l := xs)).length_le
          simp only [List.length_cons] at hl
          omega
        obtain ⟨r, hr, hrk⟩ := ih _ hlen k (by simpa using h1)
        exact ⟨r, List.mem_cons_of_mem _ ((List.dropWhile_sublist _).mem hr), hrk⟩

theorem groupRuns_keys_nodup (st : Store) :
    ∀ (n : Nat) (l : List Nat), l.length ≤ n → l.Pairwise (keyLe st) →
      ((groupRuns st l).map (fun e => e.1)).Nodup := by
  intro n
  induction n with
  | zero =>
    intro l hl _
    rw [List.length_eq_zero.mp (Nat.le_zero.mp hl)]
    simp [groupRuns]
  | succ n ih =>
    intro l hl hpw
    cases l with
    | nil => simp [groupRuns]
    | cons x xs =>
      rw [groupRuns_cons]
      have hlen : (xs.dropWhile (fun y => indexKey st y = indexKey st x)).length ≤ n := by
        have := (List.dropWhile_sublist
          (p := fun y => decide (indexKey st y = indexKey st x)) (l := xs)).length_le
        simp only [List.length_cons] at hl
        omega
      have hpwds : (xs.dropWhile (fun y => indexKey st y = indexKey st x)).Pairwise (keyLe st) :=
        List.Pairwise.sublist ((List.dropWhile_sublist _).trans (List.sublist_cons_self x xs)) hpw
      rw [List.map_cons, List.nodup_cons]
      refine ⟨?_, ih _ hlen hpwds⟩
      intro hmem
      obtain ⟨r, hr, hrk⟩ := groupRuns_keys_subset st
        (xs.dropWhile (fun y => indexKey st y = indexKey st x)).length _ (Nat.le_refl _)
        (indexKey st x) hmem
      exact no_eqkey_in_dropWhile st x xs hpw r hr hrk

theorem filter_eq_takeWhile_keyrun (st : Store) (x : Nat) (xs : List Nat)
    (hpw : (x :: xs).Pairwise (keyLe st)) :
    xs.filter (fun r => indexKey st r = indexKey st x) =
      xs.takeWhile (fun r => indexKey st r = indexKey st x) := by
  conv_lhs => rw [← List.takeWhile_append_dropWhile
    (p := fun r => decide (indexKey st r = indexKey st x)) (l := xs)]
  rw [List.filter_append]
  have h1 : (xs.takeWhile (fun r => indexKey st r = indexKey st x)).filter
      (fun r => indexKey st r = indexKey st x) =
      xs.takeWhile (fun r => indexKey st r = indexKey st x) := by
    apply List.filter_eq_self.mpr
    intro a ha
    exact List.mem_takeWhile_imp (p := fun r => decide (indexKey st r = indexKey st x)) ha
  have h2 : (xs.dropWhile (fun r => indexKey st r = indexKey st x)).filter
      (fun r => indexKey st r = indexKey st x) = [] := by
    rw [List.filter_eq_nil_iff]
    intro a ha
    simpa using no_eqkey_in_dropWhile st x xs hpw a ha
  rw [h1, h2, List.append_nil]

theorem filter_key_ne_head (st : Store) (x : Nat) (xs : List Nat) (k : String)
    (hk : ¬ k = indexKey st x) :
    (x :: xs).filter (fun r => indexKey st r = k) =
      (xs.dropWhile (fun r => indexKey st r = indexKey st x)).filter
        (fun r => indexKey st r = k) := by
  rw [List.filter_cons_of_neg (by simpa using fun hc => hk hc.symm)]
  conv_lhs => rw [← List.takeWhile_append_dropWhile
    (p := fun r => decide (indexKey st r = indexKey st x)) (l := xs)]
  rw [List.filter_append]
  have h1 : (xs.takeWhile (fun r => indexKey st r = indexKey st x)).filter
      (fun r => indexKey st r = k) = [] := by
    rw [List.filter_eq_nil_iff]
    intro a ha
    have hax := List.mem_takeWhile_imp
      (p := fun r => decide (indexKey st r = indexKey st x)) ha
    simp only [decide_eq_true_eq] at hax
    have h2 : ¬ indexKey st a = k := by
      rw [hax]
      exact fun hc => hk hc.symm
    simp [h2]
  rw [h1, List.nil_append]

theorem groupRuns_run_eq_filter (st : Store) :
    ∀ (n : Nat) (l : List Nat), l.length ≤ n → l.Pairwise (keyLe st) →
      ∀ k ns, (k, ns) ∈ groupRuns st l →
        ns = l.filter (fun r => indexKey st r = k) := by
  intro n
  induction n with
  | zero =>
    intro l hl _ k ns hmem
    rw [List.length_eq_zero.mp (Nat.le_zero.mp hl)] at hmem
    simp [groupRuns] at hmem
  | succ n ih =>
    intro l hl hpw k ns hmem
    cases l with
    | nil => simp [groupRuns] at hmem
    | cons x xs =>
      rw [groupRuns_cons, List.mem_cons] at hmem
      rcases hmem with h1 | h1
      · obtain ⟨hk, hns⟩ := Prod.mk.injEq .. ▸ h1
        subst hk
        rw [hns, List.filter_cons_of_pos (by simp),
          filter_eq_takeWhile_keyrun st x xs hpw]
      · have hkmem : k ∈ (groupRuns st
            (xs.dropWhile (fun y => indexKey st y = indexKey st x))).map
            (fun e => e.1) := List.mem_map_of_mem _ h1
        have hlen : (xs.dropWhile (fun y => indexKey st y = indexKey st x)).length ≤ n := by
          have := (List.dropWhile_sublist
            (p := fun y => decide (indexKey st y = indexKey st x)) (l := xs)).length_le
          simp only [List.length_cons] at hl
          omega
        have hpwds : (xs.dropWhile
            (fun y => indexKey st y = indexKey st x)).Pairwise (keyLe st) :=
          List.Pairwise.sublist
            ((List.dropWhile_sublist _).trans (List.sublist_cons_self x xs)) hpw
        obtain ⟨r, hr, hrk⟩ := groupRuns_keys_subset st
          (xs.dropWhile (fun y => indexKey st y = indexKey st x)).length _
          (Nat.le_refl _) k hkmem
        have hkne : ¬ k = indexKey st x := by
          intro hc
          exact no_eqkey_in_dropWhile st x xs hpw r hr (hc ▸ hrk)
        rw [ih _ hlen hpwds k ns h1, filter_key_ne_head st x xs k hkne]

theorem foldl_dictSetA_fresh {κ β : Type} [DecidableEq κ] :
    ∀ (runs : List (κ × β)) (d : List (κ × β)),
      (∀ kv ∈ runs, lookupA d kv.1 = none) → (runs.map (fun e => e.1)).Nodup →
      runs.foldl (fun d kv => dictSetA d kv.1 kv.2) d = d ++ runs := by
  intro runs
  induction runs with
  | nil => intro d _ _; simp
  | cons kv rest ih =>
    intro d hfresh hnd
    rw [List.map_cons, List.nodup_cons] at hnd
    have hk : lookupA d kv.1 = none := hfresh kv (List.mem_cons_self _ _)
    have hfind : d.find? (fun e => e.1 = kv.1) = none := Option.map_eq_none'.mp hk
    have hset : dictSetA d kv.1 kv.2 = d ++ [(kv.1, kv.2)] := by
      rw [dictSetA, if_neg (by simp [hfind])]
    have hfresh' : ∀ kv' ∈ rest, lookupA (d ++ [(kv.1, kv.2)]) kv'.1 = none := by
      intro kv' hkv'
      have hne : kv'.1 ≠ kv.1 := by
        intro hc
        exact hnd.1 (hc ▸ List.mem_map_of_mem _ hkv')
      rw [lookupA_append_single_ne kv.1 kv'.1 kv.2 hne]
      exact hfresh kv' (List.mem_cons_of_mem _ hkv')
    rw [List.foldl_cons, hset, ih (d ++ [(kv.1, kv.2)]) hfresh' hnd.2]
    simp

theorem dictBuildG_eq_of_nodup (runs : List (String × List Nat))
    (hnd : (runs.map (fun e => e.1)).Nodup) : dictBuildG runs = runs := by
  rw [dictBuildG, foldl_dictSetA_fresh runs [] (fun kv _ => rfl) hnd, List.nil_append]

theorem mainsOf_mem (st : Store) :
    ∀ (groups : List (String × List Nat)) (mains : List (String × Nat)),
      mainsOf st groups = some mains → ∀ k m, (k, m) ∈ mains →
        ∃ ns, (k, ns) ∈ groups ∧
          (ns.filter (fun r => qualifiesB st r)).head? = some m := by
  intro groups
  induction groups with
  | nil =>
    intro mains h k m hm
    rw [mainsOf] at h
    obtain rfl : ([] : List (String × Nat)) = mains := Option.some.inj h
    cases hm
  | cons g rest ih =>
    intro mains h k m hm
    obtain ⟨i, ns⟩ := g
    rw [mainsOf] at h
    cases hh : (ns.filter (fun r => qualifiesB st r)).head? with
    | none => rw [hh] at h; cases h
    | some m0 =>
      rw [hh] at h
      cases hrest : mainsOf st rest with
      | none => rw [hrest] at h; cases h
      | some mains' =>
        rw [hrest] at h
        obtain rfl : (i, m0) :: mains' = mains := Option.some.inj h
        rcases List.mem_cons.mp hm with h1 | h1
        · obtain ⟨hk, hm0⟩ := Prod.mk.injEq .. ▸ h1
          exact ⟨ns, by rw [hk]; exact List.mem_cons_self _ _, by rw [hm0]; exact hh⟩
        · obtain ⟨ns', hns', hhd⟩ := ih mains' hrest k m h1
          exact ⟨ns', List.mem_cons_of_mem _ hns', hhd⟩

theorem head?_filter_eq_find? {α : Type} (p : α → Bool) :
    ∀ l : List α, (l.filter p).head? = l.find? p := by
  intro l
  induction l with
  | nil => rfl
  | cons x xs ih =>
    cases hx : p x with
    | true => rw [List.filter_cons_of_pos hx, List.find?_cons_of_pos _ hx, List.head?_cons]
    | false =>
      rw [List.filter_cons_of_neg (by simp [hx]), List.find?_cons_of_neg _ (by simp [hx]), ih]

theorem find?_filter_and {α : Type} (p q : α → Bool) :
    ∀ l : List α, (l.filter p).find? q = l.find? (fun a => p a && q a) := by
  intro l
  induction l with
  | nil => rfl
  | cons x xs ih =>
    cases hp : p x with
    | true =>
      rw [List.filter_cons_of_pos hp]
      cases hq : q x with
      | true =>
        rw [List.find?_cons_of_pos _ hq, List.find?_cons_of_pos _ (by simp [hp, hq])]
      | false =>
        rw [List.find?_cons_of_neg _ (by simp [hq]),
          List.find?_cons_of_neg _ (by simp [hp, hq]), ih]
    | false =>
      rw [List.filter_cons_of_neg (by simp [hp]),
        List.find?_cons_of_neg _ (by simp [hp]), ih]

/-- **Claim C4, amended.**  On any input on which `find_main_coindex`
succeeds, every group in the returned dictionary consists of exactly the
document-order indexed nodes bearing that group's `index` key, and every
chosen main node is the *first member in document order* of its group that
carries `cat` or `word` (the sort by `index` is stable, so within a group
document order is preserved; the choice is by document position, not by
lowest identifier).  Determinism of the re-run is immediate: the selection
is a pure function of the input tree. -/
theorem findMainCoindex_first_doc (st : Store) (root fuel : Nat)
    (allCoind : List (String × List Nat)) (mains : List (String × Nat))
    (h : findMainCoindex st root fuel = some (allCoind, mains)) :
    (∀ k ns, (k, ns) ∈ allCoind →
      ns = ((preA st fuel [root]).filter (fun r => ((st r).index).isSome)).filter
        (fun r => indexKey st r = k)) ∧
    (∀ k m, (k, m) ∈ mains →
      ((preA st fuel [root]).filter (fun r => ((st r).index).isSome)).find?
        (fun r => decide (indexKey st r = k) && qualifiesB st r) = some m) := by
  simp only [findMainCoindex] at h
  by_cases hnil :
      (preA st fuel [root]).filter (fun r => ((st r).index).isSome) = []
  · rw [if_pos hnil] at h
    have h' := Option.some.inj h
    rw [Prod.ext_iff] at h'
    obtain ⟨h1, h2⟩ := h'
    dsimp only at h1 h2
    constructor
    · intro k ns hm
      rw [← h1] at hm
      cases hm
    · intro k m hm
      rw [← h2] at hm
      cases hm
  · rw [if_neg hnil] at h
    have hpw0 := pairwise_pySorted (fun a b => strLt (indexKey st a) (indexKey st b))
      (fun a b hab => strLt_asymm _ _ hab)
      (fun a b c h1 h2 => strLt_le_trans _ _ _ h1 h2)
      ((preA st fuel [root]).filter (fun r => ((st r).index).isSome))
    have hpw : (pySorted (fun a b => strLt (indexKey st a) (indexKey st b))
        ((preA st fuel [root]).filter (fun r => ((st r).index).isSome))).Pairwise
        (keyLe st) := hpw0
    have hnd := groupRuns_keys_nodup st
      (pySorted (fun a b => strLt (indexKey st a) (indexKey st b))
        ((preA st fuel [root]).filter (fun r => ((st r).index).isSome))).length
      _ (Nat.le_refl _) hpw
    have hbuild := dictBuildG_eq_of_nodup _ hnd
    have hrun : ∀ k ns,
        (k, ns) ∈ groupRuns st
          (pySorted (fun a b => strLt (indexKey st a) (indexKey st b))
            ((preA st fuel [root]).filter (fun r => ((st r).index).isSome))) →
        ns = (pySorted (fun a b => strLt (indexKey st a) (indexKey st b))
            ((preA st fuel [root]).filter (fun r => ((st r).index).isSome))).filter
          (fun r => indexKey st r = k) :=
      groupRuns_run_eq_filter st _ _ (Nat.le_refl _) hpw
    have hstable : ∀ k : String,
        (pySorted (fun a b => strLt (indexKey st a) (indexKey st b))
            ((preA st fuel [root]).filter (fun r => ((st r).index).isSome))).filter
          (fun r => indexKey st r = k) =
        ((preA st fuel [root]).filter (fun r => ((st r).index).isSome)).filter
          (fun r => indexKey st r = k) := by
      intro k
      apply pySorted_filter_stable
      intro x y hxy hx
      simp only [decide_eq_true_eq] at hx
      simp only [decide_eq_false_iff_not]
      intro hy
      rw [hx, hy] at hxy
      rw [strLt_irrefl] at hxy
      cases hxy
    split at h
    · cases h
    · next m' hm =>
      have h' := Option.some.inj h
      rw [Prod.ext_iff] at h'
      obtain ⟨h1, h2⟩ := h'
      dsimp only at h1 h2
      constructor
      · intro k ns hmem
        rw [← h1, hbuild] at hmem
        rw [hrun k ns hmem, hstable k]
      · intro k m hmem
        rw [← h2] at hmem
        obtain ⟨ns, hns, hhd⟩ := mainsOf_mem st _ _ hm k m hmem
        rw [hbuild] at hns
        rw [hrun k ns hns, hstable k] at hhd
        rw [head?_filter_eq_find?] at hhd
        rw [find?_filter_and] at hhd
        exact hhd

/-- The successful result of `find_main_coindex` on the C4 input store. -/
def fmcWitPair : List (String × List Nat) × List (String × Nat) :=
  (findMainCoindex fmcBugStore 10 5).getD ([], [])

/-! ## Claim C10: `lexicon_to_list` -/

theorem tripleLtB_asymm (a b : Nat × Nat × Nat) (h : tripleLtB a b = true) :
    tripleLtB b a = false := by
  simp only [tripleLtB, decide_eq_true_eq] at h
  simp only [tripleLtB, decide_eq_false_iff_not]
  omega

theorem tripleLtB_le_trans (a b c : Nat × Nat × Nat)
    (h1 : tripleLtB b a = false) (h2 : tripleLtB c b = false) : tripleLtB c a = false := by
  simp only [tripleLtB, decide_eq_false_iff_not] at h1 h2 ⊢
  omega

theorem filterMap_range_getElem {α β : Type} (f : α → Option β) :
    ∀ l : List α,
      (List.range l.length).filterMap (idxEntry f l) = l.filterMap f := by
  intro l
  induction l with
  | nil => rfl
  | cons x xs ih =>
    rw [List.length_cons, List.range_succ_eq_map, List.filterMap_cons, List.filterMap_map]
    have hcomp : (idxEntry f (x :: xs) ∘ Nat.succ) = idxEntry f xs := by
      funext i
      simp [idxEntry]
    rw [hcomp, ih]
    have hx0 : idxEntry f (x :: xs) 0 = f x := by simp [idxEntry]
    rw [hx0]
    cases hfx : f x with
    | none => simp [List.filterMap_cons, hfx]
    | some b => simp [List.filterMap_cons, hfx]

/-- **Claim C10.**  `lexicon_to_list` produces, in the `(begin, end, id)`
order of the deduplicated leaf list, exactly one `(word, type)` entry per
leaf whose disambiguation key is present in the sublexicon; a leaf with no
entry is skipped silently (the comprehension's membership guard), never an
error.  The second conjunct states the order: the traversed leaf list is
sorted by the `(begin, end, id)` triple. -/
theorem lexiconToList_exactly_present (sublex : Lexicon) (g : Grouped) (st : Store) :
    lexiconToListPairs sublex g st =
      (allLeavesSorted g st).filterMap (fun lf =>
        (lexGet sublex (getKey st lf)).map
          (fun t => (wordPart (getKey st lf), removeDeps t))) ∧
    (allLeavesSorted g st).Pairwise
      (fun a b => tripleLtB (tripleOf st b) (tripleOf st a) = false) := by
  constructor
  · have hfe : leafEntry sublex st = fun lf =>
        (lexGet sublex (getKey st lf)).map
          (fun t => (wordPart (getKey st lf), removeDeps t)) := by
      funext lf
      rw [leafEntry]
      cases lexGet sublex (getKey st lf) <;> rfl
    rw [lexiconToListPairs, ← hfe]
    exact filterMap_range_getElem (leafEntry sublex st) (allLeavesSorted g st)
  · rw [allLeavesSorted]
    have hpw0 := pairwise_pySorted (fun a b => tripleLtB (tripleOf st a) (tripleOf st b))
      (fun a b hab => tripleLtB_asymm _ _ hab)
      (fun a b c h1 h2 => tripleLtB_le_trans _ _ _ h1 h2)
      (pyDedup
        (((g.map (fun e => e.2)).flatten.map (fun x => x.1)).filter
          (fun r => ((st r).word).isSome)))
    exact hpw0

/-! ## Claim C2: determinism of the recursive type assignment -/

/-- The C2 input store: a clause (ref 0) with two word-bearing children,
one attached as `hd`, the other as `cmp` — both head-candidate labels. -/
def assignOrdStore : Store := fun r =>
  if r = 1 then { id := 1, word := some "a", pos := some "noun", begin := 0, endIdx := 1 }
  else if r = 2 then { id := 2, word := some "b", pos := some "verb", begin := 1, endIdx := 2 }
  else { id := 0, cat := some "smain", children := [1, 2] }

/-- Child list in one document order. -/
def assignOrdG1 : Grouped := [(some 0, [(1, Rel.plain "hd"), (2, Rel.plain "cmp")])]

/-- The same children, permuted. -/
def assignOrdG2 : Grouped := [(some 0, [(2, Rel.plain "cmp"), (1, Rel.plain "hd")])]

/-- **Claim C2, counterexample.**  Two adjacency dictionaries that differ
only in the order of one child list (the lists are permutations of each
other) both let the recursive type assignment succeed, yet the resulting
lexica differ: `choose_head` picks the *first* head-candidate child in list
order, so the permutation changes which node becomes the head, and the
`repr`-sorted argument list does not repair that choice. -/
theorem recursiveAssignment_order_dependent :
    keysG assignOrdG1 = keysG assignOrdG2 ∧
    ((lookupG assignOrdG1 (some 0)).getD []).Perm ((lookupG assignOrdG2 (some 0)).getD []) ∧
    (assign assignOrdStore assignOrdG1 4 0 none []).isSome = true ∧
    (assign assignOrdStore assignOrdG2 4 0 none []).isSome = true ∧
    assign assignOrdStore assignOrdG1 4 0 none [] ≠
      assign assignOrdStore assignOrdG2 4 0 none [] :=
  ⟨by decide, by decide, by decide, by decide, by decide⟩

theorem mvFamily_mono (st : Store) (g : Grouped) :
    ∀ f : Nat,
      (∀ n r, majorityVote st g f n = some r → majorityVote st g (f + 1) n = some r) ∧
      (∀ n r, getTypeKey st g f n = some r → getTypeKey st g (f + 1) n = some r) ∧
      (∀ sibs ks, getTypeKeys st g f sibs = some ks →
        getTypeKeys st g (f + 1) sibs = some ks) := by
  intro f
  induction f with
  | zero =>
    refine ⟨?_, ?_, ?_⟩ <;> intro a b h <;>
      simp [majorityVote, getTypeKey, getTypeKeys] at h
  | succ f ih =>
    obtain ⟨ihmv, ihgtk, ihgtks⟩ := ih
    refine ⟨?_, ?_, ?_⟩
    · intro n r h
      rw [majorityVote] at h ⊢
      split at h
      · cases h
      · next sibs hlg =>
        split at h
        · cases h
        · next keys hk =>
          simp only [hlg, ihgtks sibs keys hk]
          exact h
    · intro n r h
      rw [getTypeKey] at h ⊢
      split at h
      · next c hcat =>
        split at h
        · next hc =>
          simp only [hcat, if_pos hc]
          exact ihmv n r h
        · next hc =>
          simp only [hcat, if_neg hc]
          exact h
      · next hcat =>
        try simp only [hcat]
        exact h
    · intro sibs ks h
      cases sibs with
      | nil => exact h
      | cons x xs =>
        simp only [getTypeKeys] at h
        split at h
        · cases h
        · next k0 hk =>
          obtain ⟨ks0, hks, hkse⟩ := Option.map_eq_some'.mp h
          show (match getTypeKey st g (f + 1) x.1 with
                | none => none
                | some k => (getTypeKeys st g (f + 1) xs).map (fun ks => k :: ks)) = some ks
          simp only [ihgtk x.1 k0 hk, ihgtks xs ks0 hks, Option.map_some']
          rw [← hkse]

theorem getPlainType_mono (st : Store) (g : Grouped) (f : Nat) (n : Nat) (t : Ty)
    (h : getPlainType st g f n = some t) : getPlainType st g (f + 1) n = some t := by
  rw [getPlainType] at h ⊢
  split at h
  · next c hcat =>
    split at h
    · next hc =>
      simp only [hcat, if_pos hc]
      split at h
      · cases h
      · next k hmv =>
        simp only [(mvFamily_mono st g f).1 n k hmv]
        exact h
    · next hc =>
      simp only [hcat, if_neg hc]
      exact h
  · next hcat =>
    try simp only [hcat]
    exact h

theorem buildArglist_mono (st : Store) (g : Grouped) (f : Nat) :
    ∀ (l : List (Nat × Rel)) (out : List (Ty × String)),
      buildArglist st g f l = some out → buildArglist st g (f + 1) l = some out := by
  intro l
  induction l with
  | nil => intro out h; exact h
  | cons x xs ih =>
    intro out h
    rw [buildArglist] at h ⊢
    split at h
    · cases h
    · next t hpt =>
      obtain ⟨out0, hrest, houte⟩ := Option.map_eq_some'.mp h
      simp only [getPlainType_mono st g f x.1 t hpt, ih out0 hrest, Option.map_some']
      rw [← houte]

theorem topType_mono (st : Store) (g : Grouped) (f : Nat) (cur : Nat)
    (top : Option Ty) (tt : Ty)
    (h : topOType st g f cur top = some tt) :
    topOType st g (f + 1) cur top = some tt := by
  cases top with
  | some t => exact h
  | none =>
    rw [topOType] at h ⊢
    obtain ⟨t0, hpt, htt⟩ := Option.map_eq_some'.mp h
    rw [getPlainType_mono st g f cur t0 hpt, Option.map_some', ← htt]

theorem assign_succ (st : Store) (g : Grouped) (f : Nat) (current : Nat)
    (top : Option Ty) (lex : Lexicon) :
    assign st g (f + 1) current top lex =
      match lookupG g (some current) with
      | none => none
      | some siblings0 =>
        match chooseHead siblings0 with
        | none => none
        | some (hc, hr) =>
          match topOType st g (f + 1) current top with
          | none => none
          | some tt =>
            match buildArglist st g (f + 1) (orderSiblings st (some hc) siblings0) with
            | none => none
            | some argl0 =>
              match (if isLeaf st hc then
                  headLeafStep st hc (isGapB hr)
                    ((pySorted (fun a b => strLt (tyRepr a.1) (tyRepr b.1)) argl0).map
                      (fun x => x.1)) tt
                    ((pySorted (fun a b => strLt (tyRepr a.1) (tyRepr b.1)) argl0).map
                      (fun x => x.2))
                    (Ty.col
                      ((pySorted (fun a b => strLt (tyRepr a.1) (tyRepr b.1)) argl0).map
                        (fun x => x.1)) tt (isGapB hr)
                      ((pySorted (fun a b => strLt (tyRepr a.1) (tyRepr b.1)) argl0).map
                        (fun x => x.2))) lex
                else assign st g f hc (some (Ty.col
                    ((pySorted (fun a b => strLt (tyRepr a.1) (tyRepr b.1)) argl0).map
                      (fun x => x.1)) tt (isGapB hr)
                    ((pySorted (fun a b => strLt (tyRepr a.1) (tyRepr b.1)) argl0).map
                      (fun x => x.2)))) lex) with
              | none => none
              | some lex1 => assignSibs st g f (orderSiblings st (some hc) siblings0) lex1 :=
  rfl

theorem assignSibs_succ (st : Store) (g : Grouped) (f : Nat)
    (sibs : List (Nat × Rel)) (lex : Lexicon) :
    assignSibs st g (f + 1) sibs lex =
      match sibs with
      | [] => some lex
      | (sib, rel) :: rest =>
        if isLeaf st sib then
          match getPlainType st g (f + 1) sib with
          | none => none
          | some pt =>
            match (if isGapB rel then
                match lexGet lex (getKey st sib) with
                | some primary =>
                  if Ty.word [] pt false = primary then some (Ty.word [] pt true)
                  else
                    match tyArgs primary with
                    | none => none
                    | some args =>
                      match args.head? with
                      | none => none
                      | some a0 =>
                        match tyResult primary with
                        | none => none
                        | some res0 =>
                          match tyColors primary with
                          | none => none
                          | some cols =>
                            match cols.head? with
                            | none => none
                            | some c0 =>
                              some (Ty.col
                                [Ty.col [Ty.word [] pt false] a0 false [getRel rel]]
                                res0 false [c0])
                | none => none
              else some (Ty.word [] pt false)) with
            | none => none
            | some t => assignSibs st g f rest (lexSet lex (getKey st sib) t)
        else
          if isGapB rel then none
          else
            match assign st g f sib none lex with
            | none => none
            | some lex1 => assignSibs st g f rest lex1 :=
  rfl

theorem assignFamily_mono (st : Store) (g : Grouped) :
    ∀ f : Nat,
      (∀ cur top lex res, assign st g f cur top lex = some res →
        assign st g (f + 1) cur top lex = some res) ∧
      (∀ sibs lex res, assignSibs st g f sibs lex = some res →
        assignSibs st g (f + 1) sibs lex = some res) := by
  intro f
  induction f with
  | zero =>
    constructor
    · intro cur top lex res h
      simp [assign] at h
    · intro sibs lex res h
      simp [assignSibs] at h
  | succ f ih =>
    obtain ⟨iha, ihs⟩ := ih
    refine ⟨?_, ?_⟩
    · intro cur top lex res h
      rw [assign_succ] at h ⊢
      split at h
      · cases h
      · next siblings0 hlg =>
        split at h
        · cases h
        · next hc hr hch =>
          split at h
          · cases h
          · next tt htt =>
            split at h
            · cases h
            · next argl0 hba =>
              split at h
              · cases h
              · next lex1 hl1 =>
                simp only [hlg, hch, topType_mono st g (f + 1) cur top tt htt,
                  buildArglist_mono st g (f + 1) _ argl0 hba]
                by_cases hleaf : isLeaf st hc = true
                · rw [if_pos hleaf] at hl1
                  simp only [if_pos hleaf, hl1]
                  exact ihs _ lex1 res h
                · rw [if_neg hleaf] at hl1
                  simp only [if_neg hleaf, iha hc _ lex lex1 hl1]
                  exact ihs _ lex1 res h
    · intro sibs lex res h
      rw [assignSibs_succ] at h ⊢
      split at h
      · exact h
      · next sib rel rest =>
        split at h
        · next hleaf =>
          split at h
          · cases h
          · next pt hpt =>
            split at h
            · cases h
            · next t hnt
                =>
              simp only [if_pos hleaf, getPlainType_mono st g (f + 1) sib pt hpt]
              split at hnt
              · next hgap =>
                split at hnt
                · next primary hlk =>
                  split at hnt
                  · next heqp =>
                    simp only [if_pos hgap, hlk, if_pos heqp]
                    obtain rfl := Option.some.inj hnt
                    exact ihs rest _ res h
                  · next heqp =>
                    simp only [if_pos hgap, hlk, if_neg heqp]
                    split at hnt
                    · cases hnt
                    · next args hargs =>
                      try simp only [hargs]
                      split at hnt
                      · cases hnt
                      · next a0 ha0 =>
                        try simp only [ha0]
                        split at hnt
                        · cases hnt
                        · next res0 hres0 =>
                          try simp only [hres0]
                          split at hnt
                          · cases hnt
                          · next cols hcols =>
                            try simp only [hcols]
                            split at hnt
                            · cases hnt
                            · next c0 hc0 =>
                              try simp only [hc0]
                              obtain rfl := Option.some.inj hnt
                              exact ihs rest _ res h
                · next hlk =>
                  cases hnt
              · next hgap =>
                simp only [if_neg hgap]
                obtain rfl := Option.some.inj hnt
                exact ihs rest _ res h
        · next hleaf =>
          split at h
          · next hgap => cases h
          · next hgap =>
            split at h
            · cases h
            · next lex1 ha1 =>
              simp only [if_neg hleaf, if_neg hgap, iha sib none lex lex1 ha1]
              exact ihs rest lex1 res h

theorem assign_mono_le (st : Store) (g : Grouped) (f f' : Nat) (hle : f ≤ f')
    (cur : Nat) (top : Option Ty) (lex res : Lexicon)
    (h : assign st g f cur top lex = some res) : assign st g f' cur top lex = some res := by
  induction f', hle using Nat.le_induction with
  | base => exact h
  | succ f' _ ih => exact (assignFamily_mono st g f').1 cur top lex res ih

/-- **Claim C2, amended.**  The recursive type assignment is deterministic
on a fixed adjacency dictionary: any two successful runs — however much
recursion budget each is given — produce the same lexicon.  (Under a
permutation of a child list the output can change, since `choose_head`
takes the first head-candidate child in list order; see the
counterexample.) -/
theorem assign_deterministic (st : Store) (g : Grouped) (f1 f2 : Nat)
    (cur : Nat) (top : Option Ty) (lex lexA lexB : Lexicon)
    (h1 : assign st g f1 cur top lex = some lexA)
    (h2 : assign st g f2 cur top lex = some lexB) : lexA = lexB := by
  have e1 := assign_mono_le st g f1 (max f1 f2) (Nat.le_max_left f1 f2) cur top lex lexA h1
  have e2 := assign_mono_le st g f2 (max f1 f2) (Nat.le_max_right f1 f2) cur top lex lexB h2
  exact Option.some.inj (e1.symm.trans e2)

/-- The lexicon computed on the C2 input with recursion budget 4. -/
def assignWitLex4 : Lexicon := (assign assignOrdStore assignOrdG1 4 0 none []).getD []

/-- The lexicon computed on the C2 input with recursion budget 7. -/
def assignWitLex7 : Lexicon := (assign assignOrdStore assignOrdG1 7 0 none []).getD []

theorem assign_deterministic_witness :
    assign assignOrdStore assignOrdG1 4 0 none [] = some assignWitLex4 ∧
    assign assignOrdStore assignOrdG1 7 0 none [] = some assignWitLex7 ∧
    assignWitLex4 = assignWitLex7 :=
  ⟨rfl, rfl,
    assign_deterministic assignOrdStore assignOrdG1 4 7 0 none [] assignWitLex4
      assignWitLex7 rfl rfl⟩

theorem findMainCoindex_first_doc_witness :
    findMainCoindex fmcBugStore 10 5 = some (fmcWitPair.1, fmcWitPair.2) ∧
    ("1", 11) ∈ fmcWitPair.2 ∧
    ((preA fmcBugStore 5 [10]).filter (fun r => ((fmcBugStore r).index).isSome)).find?
      (fun r => decide (indexKey fmcBugStore r = "1") && qualifiesB fmcBugStore r) =
      some 11 :=
  ⟨rfl, by decide,
    (findMainCoindex_first_doc fmcBugStore 10 5 fmcWitPair.1 fmcWitPair.2 rfl).2
      "1" 11 (by decide)⟩

/-! ## Claim C8: `tree_to_dag` leaves the original tree unchanged -/

theorem lookupA_mem {κ β : Type} [DecidableEq κ] (d : List (κ × β)) (k : κ) (v : β)
    (h : lookupA d k = some v) : (k, v) ∈ d := by
  induction d with
  | nil => cases h
  | cons x xs ih =>
    rw [lookupA_cons] at h
    by_cases hx : x.1 = k
    · rw [if_pos hx] at h
      obtain rfl := Option.some.inj h
      have : x = (k, x.2) := by
        rw [← hx]
      rw [← this]
      exact List.mem_cons_self _ _
    · rw [if_neg hx] at h
      exact List.mem_cons_of_mem _ (ih h)

theorem shiftStore_children_ge (st : Store) (b p : Nat) (hp : b ≤ p) :
    ∀ c ∈ ((shiftStore st b) p).children, b ≤ c := by
  intro c hc
  simp only [shiftStore, if_pos hp, shiftNode, List.mem_map] at hc
  obtain ⟨c0, _, rfl⟩ := hc
  omega

theorem bfsPairs_ge (st : Store) (b : Nat) :
    ∀ (f : Nat) (parents : List Nat), (∀ p ∈ parents, b ≤ p) →
      ∀ pr ∈ bfsPairs (shiftStore st b) f parents, b ≤ pr.1 ∧ b ≤ pr.2 := by
  intro f
  induction f with
  | zero => intro parents _ pr hpr; cases hpr
  | succ f ih =>
    intro parents hpar pr hpr
    rw [bfsPairs] at hpr
    by_cases hemp : parents.isEmpty = true
    · rw [if_pos hemp] at hpr; cases hpr
    · rw [if_neg hemp] at hpr
      have hpairs : ∀ q ∈ ((parents.map (fun p =>
          (((shiftStore st b) p).children).map (fun c => (c, p)))).flatten),
          b ≤ q.1 ∧ b ≤ q.2 := by
        intro q hq
        rw [List.mem_flatten] at hq
        obtain ⟨l0, hl0, hql0⟩ := hq
        rw [List.mem_map] at hl0
        obtain ⟨p, hp, rfl⟩ := hl0
        rw [List.mem_map] at hql0
        obtain ⟨c, hc, rfl⟩ := hql0
        exact ⟨shiftStore_children_ge st b p (hpar p hp) c hc, hpar p hp⟩
      rcases List.mem_append.mp hpr with h1 | h1
      · exact hpairs pr h1
      · apply ih _ ?_ pr h1
        intro p hp
        rw [List.mem_map] at hp
        obtain ⟨q, hq, rfl⟩ := hp
        exact (hpairs q hq).1

theorem preA_ge (st : Store) (b : Nat) :
    ∀ (f : Nat) (work : List Nat), (∀ p ∈ work, b ≤ p) →
      ∀ r ∈ preA (shiftStore st b) f work, b ≤ r := by
  intro f
  induction f with
  | zero => intro work _ r hr; cases hr
  | succ f ih =>
    intro work hw r hr
    cases work with
    | nil => cases hr
    | cons p rest =>
      rw [preA] at hr
      rcases List.mem_cons.mp hr with h1 | h1
      · exact h1 ▸ hw p (List.mem_cons_self _ _)
      · apply ih _ ?_ r h1
        intro q hq
        rcases List.mem_append.mp hq with h2 | h2
        · exact shiftStore_children_ge st b p (hw p (List.mem_cons_self _ _)) q h2
        · exact hw q (List.mem_cons_of_mem _ h2)

theorem groupRuns_mem_subset (st : Store) :
    ∀ (n : Nat) (l : List Nat), l.length ≤ n →
      ∀ k ns, (k, ns) ∈ groupRuns st l → ∀ m ∈ ns, m ∈ l := by
  intro n
  induction n with
  | zero =>
    intro l hl k ns hm
    rw [List.length_eq_zero.mp (Nat.le_zero.mp hl)] at hm
    simp [groupRuns] at hm
  | succ n ih =>
    intro l hl k ns hm m hmns
    cases l with
    | nil => simp [groupRuns] at hm
    | cons x xs =>
      rw [groupRuns_cons, List.mem_cons] at hm
      rcases hm with h1 | h1
      · obtain ⟨hk, hns⟩ := Prod.mk.injEq .. ▸ h1
        rw [hns] at hmns
        rcases List.mem_cons.mp hmns with h2 | h2
        · exact h2 ▸ List.mem_cons_self _ _
        · exact List.mem_cons_of_mem _ ((List.takeWhile_sublist _).mem h2)
      · have hlen : (xs.dropWhile (fun y => indexKey st y = indexKey st x)).length ≤ n := by
          have := (List.dropWhile_sublist
            (p := fun y => decide (indexKey st y = indexKey st x)) (l := xs)).length_le
          simp only [List.length_cons] at hl
          omega
        exact List.mem_cons_of_mem _
          ((List.dropWhile_sublist _).mem (ih _ hlen k ns h1 m hmns))

theorem dictBuildG_val_mem :
    ∀ (runs : List (String × List Nat)) (d : List (String × List Nat)) (k : String)
      (ns : List Nat),
      (k, ns) ∈ runs.foldl (fun d kv => dictSetA d kv.1 kv.2) d →
      (∃ k', (k', ns) ∈ d) ∨ (∃ k', (k', ns) ∈ runs) := by
  intro runs
  induction runs with
  | nil =>
    intro d k ns hm
    exact Or.inl ⟨k, hm⟩
  | cons kv rest ih =>
    intro d k ns hm
    rw [List.foldl_cons] at hm
    rcases ih (dictSetA d kv.1 kv.2) k ns hm with ⟨k', hk'⟩ | ⟨k', hk'⟩
    · rw [dictSetA] at hk'
      split at hk'
      · rw [List.mem_map] at hk'
        obtain ⟨e, he, heq⟩ := hk'
        by_cases hek : e.1 = kv.1
        · rw [if_pos hek] at heq
          obtain ⟨h1, h2⟩ := Prod.mk.injEq .. ▸ heq
          exact Or.inr ⟨kv.1, by rw [← h2, Prod.mk.eta]; exact List.mem_cons_self _ _⟩
        · rw [if_neg hek] at heq
          exact Or.inl ⟨k', heq ▸ he⟩
      · rcases List.mem_append.mp hk' with h1 | h1
        · exact Or.inl ⟨k', h1⟩
        · rcases List.mem_cons.mp h1 with h2 | h2
          · obtain ⟨h3, h4⟩ := Prod.mk.injEq .. ▸ h2
            exact Or.inr ⟨kv.1, by rw [h4, Prod.mk.eta]; exact List.mem_cons_self _ _⟩
          · cases h2
    · exact Or.inr ⟨k', List.mem_cons_of_mem _ hk'⟩

theorem mainsOf_mem_val (st : Store) :
    ∀ (groups : List (String × List Nat)) (mains : List (String × Nat)),
      mainsOf st groups = some mains → ∀ k m, (k, m) ∈ mains →
        ∃ ns, (k, ns) ∈ groups ∧ m ∈ ns := by
  intro groups
  induction groups with
  | nil =>
    intro mains h k m hm
    rw [mainsOf] at h
    obtain rfl : ([] : List (String × Nat)) = mains := Option.some.inj h
    cases hm
  | cons grp rest ih =>
    intro mains h k m hm
    obtain ⟨i, ns⟩ := grp
    rw [mainsOf] at h
    cases hh : (ns.filter (fun r => qualifiesB st r)).head? with
    | none => rw [hh] at h; cases h
    | some m0 =>
      rw [hh] at h
      cases hrest : mainsOf st rest with
      | none => rw [hrest] at h; cases h
      | some mains' =>
        rw [hrest] at h
        obtain rfl : (i, m0) :: mains' = mains := Option.some.inj h
        rcases List.mem_cons.mp hm with h1 | h1
        · obtain ⟨hk, hm0⟩ := Prod.mk.injEq .. ▸ h1
          refine ⟨ns, by rw [hk]; exact List.mem_cons_self _ _, ?_⟩
          have : m0 ∈ ns.filter (fun r => qualifiesB st r) :=
            List.mem_of_mem_head? (by simp [hh])
          rw [← hm0] at this
          exact List.mem_of_mem_filter this
        · obtain ⟨ns', hns', hmns'⟩ := ih mains' hrest k m h1
          exact ⟨ns', List.mem_cons_of_mem _ hns', hmns'⟩

theorem findMainCoindex_mains_ge (st : Store) (b root fuel : Nat) (hroot : b ≤ root)
    (ac : List (String × List Nat)) (mains : List (String × Nat))
    (h : findMainCoindex (shiftStore st b) root fuel = some (ac, mains)) :
    ∀ km ∈ mains, b ≤ km.2 := by
  intro km hkm
  simp only [findMainCoindex] at h
  by_cases hnil : (preA (shiftStore st b) fuel [root]).filter
      (fun r => (((shiftStore st b) r).index).isSome) = []
  · rw [if_pos hnil] at h
    have h' := Option.some.inj h
    rw [Prod.ext_iff] at h'
    obtain ⟨h1, h2⟩ := h'
    dsimp only at h2
    rw [← h2] at hkm
    cases hkm
  · rw [if_neg hnil] at h
    split at h
    · cases h
    · next m' hm =>
      have h' := Option.some.inj h
      rw [Prod.ext_iff] at h'
      obtain ⟨h1, h2⟩ := h'
      dsimp only at h1 h2
      rw [← h2] at hkm
      obtain ⟨ns, hns, hmns⟩ := mainsOf_mem_val (shiftStore st b) _ m' hm km.1 km.2
        (by rw [← Prod.mk.eta (p := km)] at hkm; exact hkm)
      rcases dictBuildG_val_mem _ [] km.1 ns hns with ⟨k', hk'⟩ | ⟨k', hk'⟩
      · cases hk'
      · have hmem := groupRuns_mem_subset (shiftStore st b) _ _ (Nat.le_refl _)
          k' ns hk' km.2 hmns
        have hmemc := (perm_pySorted _ _).mem_iff.mp hmem
        have hmemp := List.mem_of_mem_filter hmemc
        exact preA_ge st b fuel [root]
          (by intro p hp; rcases List.mem_cons.mp hp with h3 | h3
              · exact h3 ▸ hroot
              · cases h3) km.2 hmemp

theorem t2dLoop1_frame (b : Nat) (mainRefs : List Nat) :
    ∀ (pairs : List (Nat × Nat)) (st st1 : Store),
      (∀ pr ∈ pairs, b ≤ pr.1) → t2dLoop1 mainRefs pairs st = some st1 →
      ∀ r, r < b → st1 r = st r := by
  intro pairs
  induction pairs with
  | nil =>
    intro st st1 _ h r _
    obtain rfl := Option.some.inj h
    rfl
  | cons pr rest ih =>
    intro st st1 hge h r hr
    obtain ⟨c, p⟩ := pr
    rw [t2dLoop1] at h
    have hc : b ≤ c := (hge (c, p) (List.mem_cons_self _ _))
    have hrests : ∀ q ∈ rest, b ≤ q.1 := fun q hq => hge q (List.mem_cons_of_mem _ hq)
    by_cases hmain : mainRefs.contains c = true
    · rw [if_pos hmain] at h
      split at h
      · next s hrel =>
        have := ih _ st1 hrests h r hr
        rw [this, updStore_ne]
        omega
      · cases h
    · rw [if_neg hmain] at h
      exact ih _ st1 hrests h r hr

theorem t2dLoop2_frame (b : Nat) (mains : List (String × Nat))
    (hmge : ∀ km ∈ mains, b ≤ km.2) :
    ∀ (pairs : List (Nat × Nat)) (st st2 : Store),
      (∀ pr ∈ pairs, b ≤ pr.1 ∧ b ≤ pr.2) → t2dLoop2 mains pairs st = some st2 →
      ∀ r, r < b → st2 r = st r := by
  intro pairs
  induction pairs with
  | nil =>
    intro st st2 _ h r _
    obtain rfl := Option.some.inj h
    rfl
  | cons pr rest ih =>
    intro st st2 hge h r hr
    obtain ⟨c, p⟩ := pr
    simp only [t2dLoop2] at h
    have hc : b ≤ c := (hge (c, p) (List.mem_cons_self _ _)).1
    have hp : b ≤ p := (hge (c, p) (List.mem_cons_self _ _)).2
    have hrests : ∀ q ∈ rest, b ≤ q.1 ∧ b ≤ q.2 :=
      fun q hq => hge q (List.mem_cons_of_mem _ hq)
    cases hrel : (st c).rel with
    | rmap m0 =>
      simp only [hrel] at h
      exact ih _ st2 hrests h r hr
    | rstr s =>
      simp only [hrel] at h
      cases hix : (st c).index with
      | none =>
        simp only [hix] at h
        have := ih _ st2 hrests h r hr
        rw [this, updStore_ne]
        omega
      | some ix =>
        simp only [hix] at h
        cases hlk : lookupA mains ix with
        | none => simp only [hlk] at h; cases h
        | some m =>
          simp only [hlk] at h
          have hm : b ≤ m := hmge (ix, m) (lookupA_mem mains ix m hlk)
          cases hmrel : (st m).rel with
          | rstr s0 => simp only [hmrel] at h; cases h
          | rmap old =>
            simp only [hmrel] at h
            split at h
            · next hcont =>
              have := ih _ st2 hrests h r hr
              rw [this, updStore_ne, updStore_ne]
              · omega
              · omega
            · cases h

/-- **Claim C8.**  With `inline=False`, `tree_to_dag` operates entirely on
the deep copy (allocated at references `≥ b`, beyond the original tree):
the returned root is the copy's root, and every reference of the caller's
original tree (below the copy bound) maps to exactly the node it held
before the call — all coindex-resolution mutations hit only the copy. -/
theorem treeToDag_preserves_original (root : Nat) (st : Store) (b fb fp : Nat)
    (root' : Nat) (st' : Store)
    (h : treeToDag false root st b fb fp = some (root', st')) :
    root' = root + b ∧ ∀ r, r < b → st' r = st r := by
  rw [treeToDag] at h
  simp only [Bool.false_eq_true, if_false] at h
  split at h
  · cases h
  · next ac mains hfmc =>
    split at h
    · cases h
    · next st1 hl1 =>
      split at h
      · cases h
      · next st2 hl2 =>
        have h' := Option.some.inj h
        rw [Prod.ext_iff] at h'
        obtain ⟨h1, h2⟩ := h'
        dsimp only at h1 h2
        have hroots : b ≤ root + b := Nat.le_add_left b root
        have hnodes : ∀ pr ∈ bfsPairs (shiftStore st b) fb [root + b],
            b ≤ pr.1 ∧ b ≤ pr.2 := by
          apply bfsPairs_ge st b fb [root + b]
          intro p hp
          rcases List.mem_cons.mp hp with h3 | h3
          · exact h3 ▸ hroots
          · cases h3
        have hmge := findMainCoindex_mains_ge st b (root + b) fp hroots ac mains hfmc
        constructor
        · exact h1.symm
        · intro r hrb
          rw [← h2]
          rw [t2dLoop2_frame b mains hmge _ st1 st2 hnodes hl2 r hrb]
          rw [t2dLoop1_frame b (mains.map (fun x => x.2)) _ (shiftStore st b) st1
            (fun pr hpr => (hnodes pr hpr).1) hl1 r hrb]
          simp only [shiftStore]
          rw [if_neg (by omega)]

/-- The C8 input: a two-node tree (root 0 with leaf child 1), no
coindexing. -/
def tdWitSt : Store := fun r =>
  if r = 1 then { id := 1, word := some "w", rel := .rstr "hd", begin := 0, endIdx := 1 }
  else { id := 0, cat := some "top", children := [1] }

/-- The C8 output pair on the witness input. -/
def tdWitPair : Nat × Store :=
  (treeToDag false 0 tdWitSt 10 3 3).getD (0, fun _ => { id := 0 })

theorem treeToDag_preserves_original_witness :
    treeToDag false 0 tdWitSt 10 3 3 = some (tdWitPair.1, tdWitPair.2) ∧
    (0 : Nat) < 10 ∧ tdWitPair.1 = 0 + 10 ∧ tdWitPair.2 0 = tdWitSt 0 :=
  ⟨rfl, by decide,
    (treeToDag_preserves_original 0 tdWitSt 10 3 3 tdWitPair.1 tdWitPair.2 rfl).1,
    (treeToDag_preserves_original 0 tdWitSt 10 3 3 tdWitPair.1 tdWitPair.2 rfl).2 0
      (by decide)⟩

end DSBU
